import Mathlib

/-!
Verification of the SocialLinkPrediction notebook.

The numerical core of the notebook (functions `index`, `is_drazin`,
`drazin_inverse`, `laplacian`, `effective_resistance`, and the class
`LinkPredictor`) is embedded shallowly over exact rational matrices
`Matrix (Fin n) (Fin n) ℚ`:

* `numpy.linalg.matrix_rank` is modelled by the exact rank `Matrix.rank`;
* `numpy.isclose(det(A), 0)` is modelled by the exact test `det A = 0`;
* `scipy.linalg.schur` is an external primitive: `drazin_inverse` receives its
  outputs `Q1`, `Q2`, `k1` as arguments, and the theorem about it assumes the
  contract those outputs satisfy (invertible change of basis, block-diagonal
  conjugated matrix, invertible leading block, nilpotent trailing block);
* `scipy.linalg.inv` is modelled by the exact matrix inverse `⁻¹`;
* `scipy.sparse.csgraph.laplacian` is external code, modelled below
  (`csgraph_laplacian`) from its documented behaviour;
* `effective_resistance` calls `drazin_inverse`, whose value is fixed only
  through the Schur oracle, so it is embedded as a relation: the per-node
  matrices `D j` are constrained to satisfy the Drazin identities (the
  notebook's own validator `is_drazin`) for the grounded Laplacians; the
  Drazin inverse is unique (proved in `drazin_unique` below), so the relation
  pins down the same matrix the notebook computes;
* exceptions (`ValueError`) are modelled with `Except`/`Option` results.
-/

/-- Embedding of the loop of `index(A, tol)`.  The fuel argument counts the
remaining iterations of the `while k <= n` loop; `k` and `Ak` are the loop
variables.  When the fuel runs out the loop exits and the final `return k`
fires (with `k = n + 1`). -/
noncomputable def indexAux {n : ℕ} (A : Matrix (Fin n) (Fin n) ℚ) :
    ℕ → ℕ → Matrix (Fin n) (Fin n) ℚ → ℕ
  | 0, k, _ => k
  | fuel + 1, k, Ak =>
      if Ak.rank = (A * Ak).rank then k else indexAux A fuel (k + 1) (A * Ak)

/-- `index(A)`: 0 if the determinant is (distinguishably) nonzero, otherwise
the loop starting at `k = 1`, `Ak = A`. -/
noncomputable def index {n : ℕ} (A : Matrix (Fin n) (Fin n) ℚ) : ℕ :=
  if A.det ≠ 0 then 0 else indexAux A n 1 A

/-- `is_drazin(A, Ad, k)`: the three Drazin-inverse identities, with exact
equality in place of `np.allclose`. -/
def is_drazin {n : ℕ} (A Ad : Matrix (Fin n) (Fin n) ℚ) (k : ℕ) : Prop :=
  A * Ad = Ad * A ∧ A ^ (k + 1) * Ad = A ^ k ∧ Ad * A * Ad = Ad

instance {n : ℕ} (A Ad : Matrix (Fin n) (Fin n) ℚ) (k : ℕ) :
    Decidable (is_drazin A Ad k) := by
  unfold is_drazin
  infer_instance

/-- `np.hstack((Q1[:,:k1], Q2[:,:n-k1]))`: the first `k1` columns come from
`Q1`, the remaining ones from the leading columns of `Q2`. -/
def hstackU {n : ℕ} (Q1 Q2 : Matrix (Fin n) (Fin n) ℚ) (k1 : ℕ) :
    Matrix (Fin n) (Fin n) ℚ :=
  Matrix.of fun i j =>
    if (j : ℕ) < k1 then Q1 i j
    else Q2 i ⟨(j : ℕ) - k1, lt_of_le_of_lt (Nat.sub_le _ _) j.isLt⟩

/-- `V[:k1,:k1]`, the leading block of a matrix. -/
def leadBlock {n : ℕ} (V : Matrix (Fin n) (Fin n) ℚ) (k1 : ℕ) (hk : k1 ≤ n) :
    Matrix (Fin k1) (Fin k1) ℚ :=
  Matrix.of fun i j => V (Fin.castLE hk i) (Fin.castLE hk j)

/-- The trailing `(n-k1) × (n-k1)` block of a matrix. -/
def trailBlock {n : ℕ} (V : Matrix (Fin n) (Fin n) ℚ) (k1 : ℕ) :
    Matrix (Fin (n - k1)) (Fin (n - k1)) ℚ :=
  Matrix.of fun i j =>
    V ⟨k1 + (i : ℕ), by have := i.isLt; omega⟩ ⟨k1 + (j : ℕ), by have := j.isLt; omega⟩

/-- `V = U_inv @ A @ U` as computed inside `drazin_inverse`. -/
noncomputable def schurV {n : ℕ} (A Q1 Q2 : Matrix (Fin n) (Fin n) ℚ) (k1 : ℕ) :
    Matrix (Fin n) (Fin n) ℚ :=
  (hstackU Q1 Q2 k1)⁻¹ * A * hstackU Q1 Q2 k1

/-- The matrix `Z` built inside `drazin_inverse`: it starts as the zero matrix
and, when `k1 ≠ 0`, its leading `k1 × k1` block is set to `inv(V[:k1,:k1])`
(for `k1 = 0` the guarded assignment in the source writes nothing, which the
conditional below reproduces since no index is `< 0`). -/
noncomputable def zBlock {n : ℕ} (V : Matrix (Fin n) (Fin n) ℚ) (k1 : ℕ)
    (hk : k1 ≤ n) : Matrix (Fin n) (Fin n) ℚ :=
  Matrix.of fun i j =>
    if h : (i : ℕ) < k1 ∧ (j : ℕ) < k1 then (leadBlock V k1 hk)⁻¹ ⟨i, h.1⟩ ⟨j, h.2⟩
    else 0

/-- `drazin_inverse(A, tol)`.  The two sorted Schur decompositions are external
primitives, so their outputs `Q1`, `Q2`, `k1` are arguments here:
`U = hstack(...)`, `V = U_inv @ A @ U` (`schurV`), then `U @ Z @ U_inv` with
`Z` as above. -/
noncomputable def drazin_inverse {n : ℕ} (A Q1 Q2 : Matrix (Fin n) (Fin n) ℚ)
    (k1 : ℕ) (hk : k1 ≤ n) : Matrix (Fin n) (Fin n) ℚ :=
  let U := hstackU Q1 Q2 k1
  let V := schurV A Q1 Q2 k1
  U * zBlock V k1 hk * U⁻¹

/-- The projection onto the leading `k1` coordinates; proof-side helper for the
block reasoning about `drazin_inverse` (not part of the source). -/
def projBlock (n k1 : ℕ) : Matrix (Fin n) (Fin n) ℚ :=
  Matrix.diagonal fun i => if (i : ℕ) < k1 then 1 else 0

/-- `laplacian(A)`: builds the diagonal matrix `D` of row sums (the inner
Python loop accumulates each row's entries left to right) and returns
`D - A`. -/
def laplacian {n : ℕ} (A : Matrix (Fin n) (Fin n) ℚ) : Matrix (Fin n) (Fin n) ℚ :=
  let D : Matrix (Fin n) (Fin n) ℚ := Matrix.of fun p q =>
    if p = q then ((List.finRange n).map fun i => A p i).foldl (· + ·) 0 else 0
  D - A

/-- The spec's words for the Laplacian: `diag(row sums of A) - A`. -/
def laplacianSpec {n : ℕ} (A : Matrix (Fin n) (Fin n) ℚ) :
    Matrix (Fin n) (Fin n) ℚ :=
  Matrix.diagonal (fun j => ∑ i, A j i) - A

/-- Modelled from the spec: the external primitive
`scipy.sparse.csgraph.laplacian` used by `effective_resistance` (its code is
not part of this repository).  For a dense array it ignores the diagonal of
the input and returns the matrix whose off-diagonal entries are `-A p q` and
whose diagonal entries are the column sums of the off-diagonal entries. -/
def csgraph_laplacian {n : ℕ} (A : Matrix (Fin n) (Fin n) ℚ) :
    Matrix (Fin n) (Fin n) ℚ :=
  Matrix.of fun p q =>
    if p = q then Finset.sum (Finset.univ.filter fun i => i ≠ p) (fun i => A i p)
    else -(A p q)

/-- `Lcopy` with its `j`-th row replaced by the `j`-th row of the identity
(`Lcopy[j] = I[j]`), applied to the csgraph Laplacian of `A`. -/
def grounded {n : ℕ} (A : Matrix (Fin n) (Fin n) ℚ) (j : Fin n) :
    Matrix (Fin n) (Fin n) ℚ :=
  Matrix.updateRow (csgraph_laplacian A) j fun i => if j = i then 1 else 0

/-- Relational embedding of `effective_resistance(A)`.  The loop computes, for
each node `j`, `Lj = drazin_inverse(Lcopy)`; since `drazin_inverse` is driven
by the external Schur primitive, `Lj` is characterised here by the notebook's
own validator: `D j` satisfies the three Drazin identities for the grounded
Laplacian (this determines `D j` uniquely, see `drazin_unique`).  Row `j` of
`R` is the diagonal of `D j`; finally the identity is subtracted. -/
def effective_resistance {n : ℕ} (A R : Matrix (Fin n) (Fin n) ℚ) : Prop :=
  ∃ D : Fin n → Matrix (Fin n) (Fin n) ℚ,
    (∀ j, ∃ k, is_drazin (grounded A j) (D j) k) ∧
    R = Matrix.of (fun j i => D j i i) - 1

/-- Inner state of `np.argmin`'s scan: remaining list, best value so far, its
index, index of the next element. -/
def argminAux : List ℚ → ℚ → ℕ → ℕ → ℕ
  | [], _, bi, _ => bi
  | x :: xs, bv, bi, ci =>
      if x < bv then argminAux xs x ci (ci + 1) else argminAux xs bv bi (ci + 1)

/-- `np.argmin` on a 1-D array: index of the first occurrence of the minimum.
`np.argmin` raises on an empty array; callers below only reach it with a
nonempty list (the `[]` branch is dead code). -/
def argminIdx : List ℚ → ℕ
  | [] => 0
  | x :: xs => argminAux xs x 0 1

/-- The row-major flattening of a matrix, as scanned by `M.argmin()`. -/
def flattenM {n : ℕ} (M : Matrix (Fin n) (Fin n) ℚ) : List ℚ :=
  (List.finRange n).flatMap fun i => (List.finRange n).map fun j => M i j

/-- State of a `LinkPredictor` object: adjacency matrix `A`, effective
resistance matrix `R`, the name-to-index and index-to-name dictionaries, and
the parsed pair list. -/
structure LinkPredictor (n : ℕ) where
  A : Matrix (Fin n) (Fin n) ℚ
  R : Matrix (Fin n) (Fin n) ℚ
  index_dict : String → Option (Fin n)
  name_dict : Fin n → String
  names_list : List (String × String)

/-- `R_mute = (self.A + np.identity(n)) * 999 + self.R`. -/
def R_mute {n : ℕ} (s : LinkPredictor n) : Matrix (Fin n) (Fin n) ℚ :=
  (999 : ℚ) • (s.A + 1) + s.R

/-- `predict_link(self)` with `node is None`: `np.unravel_index` of
`R_mute.argmin()` in row-major order, then both names are looked up.  On an
empty model (`n = 0`) `np.argmin` raises a `ValueError`.  The `% n` in the
first index is a no-op (the argmin index is `< n * n`, see
`predict_link_none_spec`); it only discharges the `Fin` bound. -/
def predict_link_none {n : ℕ} (s : LinkPredictor n) : Except String (String × String) :=
  let q := argminIdx (flattenM (R_mute s))
  if h : 0 < n then
    Except.ok (s.name_dict ⟨q / n % n, Nat.mod_lt _ h⟩,
               s.name_dict ⟨q % n, Nat.mod_lt _ h⟩)
  else Except.error "attempt to get argmin of an empty sequence"

/-- `predict_link(self, node)` with an explicit node: raise if the name is
unknown, otherwise `np.argmin` over the node's row of `R_mute`.  The `% n` is
a no-op as in `predict_link_none`. -/
def predict_link_some {n : ℕ} (s : LinkPredictor n) (node : String) :
    Except String String :=
  match s.index_dict node with
  | none => Except.error "Node not in graph"
  | some index1 =>
      let q := argminIdx ((List.finRange n).map fun j => R_mute s index1 j)
      Except.ok (s.name_dict ⟨q % n, Nat.mod_lt _ index1.pos⟩)

/-- `add_link(self, node1, node2)`: raise (leaving the state untouched — the
membership test precedes every assignment in the source) if either name is
unknown; otherwise set `A[i1,i2] = A[i2,i1] = 1`.  The result pairs the state
after the call with the raised error, if any. -/
def add_link {n : ℕ} (s : LinkPredictor n) (node1 node2 : String) :
    LinkPredictor n × Option String :=
  match s.index_dict node1, s.index_dict node2 with
  | some index1, some index2 =>
      ({ s with A := Matrix.of fun p q =>
            if (p = index1 ∧ q = index2) ∨ (p = index2 ∧ q = index1) then 1
            else s.A p q },
       none)
  | _, _ => (s, some "nodes need to be in the graph")

/-- One step of the constructor's first scan: a name is appended to the order
list the first time it is seen. -/
def addName (l : List String) (x : String) : List String :=
  if x ∈ l then l else l ++ [x]

/-- First-occurrence order of the names in the pair list (the constructor's
first loop, which fills `index_dict`/`name_dict` in this order). -/
def nameOrder (ff : List (String × String)) : List String :=
  ff.foldl (fun l p => addName (addName l p.1) p.2) []

/-- `index_dict` as built by the constructor: position of a name in the
first-occurrence order. -/
def buildIdx (ff : List (String × String)) :
    String → Option (Fin (nameOrder ff).length) := fun x =>
  if h : x ∈ nameOrder ff
  then some ⟨(nameOrder ff).indexOf x, List.indexOf_lt_length.mpr h⟩
  else none

/-- `name_dict` as built by the constructor. -/
def buildName (ff : List (String × String)) :
    Fin (nameOrder ff).length → String := fun i => (nameOrder ff).get i

/-- `A[i, j] += 1`. -/
def bump {n : ℕ} (A : Matrix (Fin n) (Fin n) ℚ) (i j : Fin n) :
    Matrix (Fin n) (Fin n) ℚ :=
  Matrix.of fun p q => if p = i ∧ q = j then A p q + 1 else A p q

/-- The constructor's adjacency matrix: starting from zeros, each pair
increments `(i1, i2)` and then `(i2, i1)` (so repeated pairs accumulate).
The lookups cannot fail since the dictionary was built from the same list;
the fall-through branch is dead code. -/
def buildAdj (ff : List (String × String)) :
    Matrix (Fin (nameOrder ff).length) (Fin (nameOrder ff).length) ℚ :=
  ff.foldl
    (fun A p =>
      match buildIdx ff p.1, buildIdx ff p.2 with
      | some i1, some i2 => bump (bump A i1 i2) i2 i1
      | _, _ => A)
    0

/-- `LinkPredictor.__init__` seen as a relation (its `R` component is fixed
only through the Schur oracle inside `effective_resistance`). -/
def Constructed (ff : List (String × String))
    (s : LinkPredictor (nameOrder ff).length) : Prop :=
  s.A = buildAdj ff ∧ s.index_dict = buildIdx ff ∧ s.name_dict = buildName ff ∧
  s.names_list = ff ∧ effective_resistance s.A s.R

/-- States reachable by the model: construction from a pair list, followed by
any sequence of `add_link` calls (`predict_link` reads the state without
mutating it). -/
inductive Reachable : ∀ {n : ℕ}, LinkPredictor n → Prop where
  | constructed : ∀ (ff : List (String × String))
      (s : LinkPredictor (nameOrder ff).length), Constructed ff s → Reachable s
  | add : ∀ {n : ℕ} (s : LinkPredictor n) (a b : String),
      Reachable s → Reachable (add_link s a b).1

/-- Pair list with a duplicated pair, for the C4 counterexample. -/
def ffDup : List (String × String) := [("a", "b"), ("a", "b")]

/-- The state constructed from `ffDup` (its resistance matrix is the exact
value determined by `effective_resistance`). -/
def Sdup : LinkPredictor 2 :=
  { A := buildAdj ffDup
    R := !![0, 1/2; 1/2, 0]
    index_dict := buildIdx ffDup
    name_dict := buildName ffDup
    names_list := ffDup }

/-- Pair list of a single edge (a complete graph on two nodes), for the C6
counterexample. -/
def ffK2 : List (String × String) := [("a", "b")]

/-- The state constructed from `ffK2`. -/
def SK2 : LinkPredictor 2 :=
  { A := buildAdj ffK2
    R := !![0, 1; 1, 0]
    index_dict := buildIdx ffK2
    name_dict := buildName ffK2
    names_list := ffK2 }

/-- The empty model (zero nodes), for the C7 counterexample. -/
def Sempty : LinkPredictor 0 :=
  { A := 0
    R := 0
    index_dict := fun _ => none
    name_dict := fun i => i.elim0
    names_list := [] }

/-- Pair list building a disconnected graph (an edge and a 3-node path), for
the C8 counterexample. -/
def ffDisc : List (String × String) := [("a", "b"), ("c", "d"), ("d", "e")]

/-- The rational matrix with the entries of an integer matrix; concrete
matrices below are given as scaled integer matrices so that their products can
be verified by integer computation. -/
def intMat {n : ℕ} (M : Matrix (Fin n) (Fin n) ℤ) : Matrix (Fin n) (Fin n) ℚ :=
  M.map fun z => (z : ℚ)

/-- Integer numerators (denominator 36) of the Drazin inverses of the five
grounded Laplacians of the disconnected graph. -/
def DdiscZ : Fin 5 → Matrix (Fin 5) (Fin 5) ℤ :=
  ![!![36, 0, 0, 0, 0;
      36, 36, 0, 0, 0;
      0, 0, 20, -4, -16;
      0, 0, -4, 8, -4;
      0, 0, -16, -4, 20],
    !![36, 36, 0, 0, 0;
      0, 36, 0, 0, 0;
      0, 0, 20, -4, -16;
      0, 0, -4, 8, -4;
      0, 0, -16, -4, 20],
    !![9, -9, 0, 0, 0;
      -9, 9, 0, 0, 0;
      0, 0, 36, 0, 0;
      0, 0, 36, 36, 36;
      0, 0, 36, 36, 72],
    !![9, -9, 0, 0, 0;
      -9, 9, 0, 0, 0;
      0, 0, 36, 36, 0;
      0, 0, 0, 36, 0;
      0, 0, 0, 36, 36],
    !![9, -9, 0, 0, 0;
      -9, 9, 0, 0, 0;
      0, 0, 72, 36, 36;
      0, 0, 36, 36, 36;
      0, 0, 0, 0, 36]]

/-- Drazin inverses of the five grounded Laplacians of the disconnected
graph. -/
def Ddisc : Fin 5 → Matrix (Fin 5) (Fin 5) ℚ := fun j => (1/36 : ℚ) • intMat (DdiscZ j)

/-- The five grounded Laplacians of the disconnected graph (integer
entries). -/
def GdiscZ : Fin 5 → Matrix (Fin 5) (Fin 5) ℤ :=
  ![!![1, 0, 0, 0, 0;
      -1, 1, 0, 0, 0;
      0, 0, 1, -1, 0;
      0, 0, -1, 2, -1;
      0, 0, 0, -1, 1],
    !![1, -1, 0, 0, 0;
      0, 1, 0, 0, 0;
      0, 0, 1, -1, 0;
      0, 0, -1, 2, -1;
      0, 0, 0, -1, 1],
    !![1, -1, 0, 0, 0;
      -1, 1, 0, 0, 0;
      0, 0, 1, 0, 0;
      0, 0, -1, 2, -1;
      0, 0, 0, -1, 1],
    !![1, -1, 0, 0, 0;
      -1, 1, 0, 0, 0;
      0, 0, 1, -1, 0;
      0, 0, 0, 1, 0;
      0, 0, 0, -1, 1],
    !![1, -1, 0, 0, 0;
      -1, 1, 0, 0, 0;
      0, 0, 1, -1, 0;
      0, 0, -1, 2, -1;
      0, 0, 0, 0, 1]]

/-- The five grounded Laplacians of the disconnected graph, as rational
matrices. -/
def Gdisc : Fin 5 → Matrix (Fin 5) (Fin 5) ℚ := fun j => intMat (GdiscZ j)

/-- Integer numerators (denominator 6) of the products `Gdisc j * Ddisc j`. -/
def PdiscZ : Fin 5 → Matrix (Fin 5) (Fin 5) ℤ :=
  ![!![6, 0, 0, 0, 0;
      0, 6, 0, 0, 0;
      0, 0, 4, -2, -2;
      0, 0, -2, 4, -2;
      0, 0, -2, -2, 4],
    !![6, 0, 0, 0, 0;
      0, 6, 0, 0, 0;
      0, 0, 4, -2, -2;
      0, 0, -2, 4, -2;
      0, 0, -2, -2, 4],
    !![3, -3, 0, 0, 0;
      -3, 3, 0, 0, 0;
      0, 0, 6, 0, 0;
      0, 0, 0, 6, 0;
      0, 0, 0, 0, 6],
    !![3, -3, 0, 0, 0;
      -3, 3, 0, 0, 0;
      0, 0, 6, 0, 0;
      0, 0, 0, 6, 0;
      0, 0, 0, 0, 6],
    !![3, -3, 0, 0, 0;
      -3, 3, 0, 0, 0;
      0, 0, 6, 0, 0;
      0, 0, 0, 6, 0;
      0, 0, 0, 0, 6]]

/-- The products `Gdisc j * Ddisc j` (spectral projections). -/
def Pdisc : Fin 5 → Matrix (Fin 5) (Fin 5) ℚ := fun j => (1/6 : ℚ) • intMat (PdiscZ j)

/-- Integer numerators (denominator 2) of the Drazin inverses of the grounded
Laplacians of the doubled edge. -/
def DdupZ : Fin 2 → Matrix (Fin 2) (Fin 2) ℤ :=
  ![!![2, 0; 2, 1], !![1, 2; 0, 2]]

/-- Grounded Laplacians of the doubled edge (integer entries). -/
def GdupZ : Fin 2 → Matrix (Fin 2) (Fin 2) ℤ :=
  ![!![1, 0; -2, 2], !![2, -2; 0, 1]]

/-- Products `Gdup j * Ddup j`. -/
def PdupZ : Fin 2 → Matrix (Fin 2) (Fin 2) ℤ :=
  ![!![1, 0; 0, 1], !![1, 0; 0, 1]]

/-- Drazin inverses of the grounded Laplacians of the single edge. -/
def DK2Z : Fin 2 → Matrix (Fin 2) (Fin 2) ℤ :=
  ![!![1, 0; 1, 1], !![1, 1; 0, 1]]

/-- Grounded Laplacians of the single edge (integer entries). -/
def GK2Z : Fin 2 → Matrix (Fin 2) (Fin 2) ℤ :=
  ![!![1, 0; -1, 1], !![1, -1; 0, 1]]

/-- Products `GK2 j * DK2 j`. -/
def PK2Z : Fin 2 → Matrix (Fin 2) (Fin 2) ℤ :=
  ![!![1, 0; 0, 1], !![1, 0; 0, 1]]

/-- Drazin inverses of the grounded Laplacians of the doubled edge. -/
def Ddup : Fin 2 → Matrix (Fin 2) (Fin 2) ℚ := fun j => (1/2 : ℚ) • intMat (DdupZ j)

/-- Grounded Laplacians of the doubled edge, as rational matrices. -/
def Gdup : Fin 2 → Matrix (Fin 2) (Fin 2) ℚ := fun j => intMat (GdupZ j)

/-- Products `Gdup j * Ddup j`, as rational matrices. -/
def Pdup : Fin 2 → Matrix (Fin 2) (Fin 2) ℚ := fun j => intMat (PdupZ j)

/-- Drazin inverses of the grounded Laplacians of the single edge. -/
def DK2 : Fin 2 → Matrix (Fin 2) (Fin 2) ℚ := fun j => intMat (DK2Z j)

/-- Grounded Laplacians of the single edge, as rational matrices. -/
def GK2 : Fin 2 → Matrix (Fin 2) (Fin 2) ℚ := fun j => intMat (GK2Z j)

/-- Products `GK2 j * DK2 j`, as rational matrices. -/
def PK2 : Fin 2 → Matrix (Fin 2) (Fin 2) ℚ := fun j => intMat (PK2Z j)

/-- The resistance matrix of the disconnected graph, as produced by
`effective_resistance`: row `j` is the diagonal of `Ddisc j`, minus the
identity. -/
def Rdisc : Matrix (Fin 5) (Fin 5) ℚ :=
  Matrix.of (fun j i => Ddisc j i i) - 1

/-- A small concrete state used by witnesses: two nodes `"a"`, `"b"`, empty
adjacency, resistance 1 between them. -/
def Sw : LinkPredictor 2 :=
  { A := 0
    R := !![0, 1; 1, 0]
    index_dict := fun x => if x = "a" then some 0 else if x = "b" then some 1 else none
    name_dict := !["a", "b"]
    names_list := [("a", "b")] }

/-- The adjacency matrix of the disconnected graph, as a literal matrix. -/
def Adisc : Matrix (Fin 5) (Fin 5) ℚ :=
  !![0, 1, 0, 0, 0;
     1, 0, 0, 0, 0;
     0, 0, 0, 1, 0;
     0, 0, 1, 0, 1;
     0, 0, 0, 1, 0]

/-! ## Theorems -/

/-- A square rational matrix with zero determinant has rank `< n`. -/
lemma rank_lt_of_det_eq_zero {n : ℕ} (A : Matrix (Fin n) (Fin n) ℚ)
    (h : A.det = 0) : A.rank < n := by
  rcases Nat.eq_zero_or_pos n with hn | hn
  · subst hn
    have : A.det = 1 := Matrix.det_fin_zero
    rw [this] at h
    norm_num at h
  · obtain ⟨v, hv, hAv⟩ := (Matrix.exists_mulVec_eq_zero_iff).mpr h
    have hker : 0 < Module.finrank ℚ (LinearMap.ker A.mulVecLin) := by
      rw [Module.finrank_pos_iff_exists_ne_zero]
      refine ⟨⟨v, ?_⟩, ?_⟩
      · simpa [Matrix.mulVecLin_apply] using hAv
      · simpa [Submodule.mk_eq_zero] using hv
    have hrn := LinearMap.finrank_range_add_finrank_ker A.mulVecLin
    have hpi : Module.finrank ℚ (Fin n → ℚ) = n := by simp
    rw [hpi] at hrn
    have hrank : A.rank = Module.finrank ℚ (LinearMap.range A.mulVecLin) := rfl
    omega

/-- If the loop has enough fuel relative to the current rank, its result is
bounded by `k + rank Ak`. -/
lemma indexAux_le {n : ℕ} (A : Matrix (Fin n) (Fin n) ℚ) :
    ∀ fuel k (Ak : Matrix (Fin n) (Fin n) ℚ),
      Ak.rank < fuel → indexAux A fuel k Ak ≤ k + Ak.rank := by
  intro fuel
  induction fuel with
  | zero => intro k Ak h; omega
  | succ m ih =>
      intro k Ak h
      rw [indexAux]
      by_cases heq : Ak.rank = (A * Ak).rank
      · simp only [heq, if_pos]; omega
      · rw [if_neg heq]
        have hle : (A * Ak).rank ≤ Ak.rank := Matrix.rank_mul_le_right A Ak
        have hlt : (A * Ak).rank < Ak.rank := lt_of_le_of_ne hle (Ne.symm heq)
        have := ih (k + 1) (A * Ak) (by omega)
        omega

/-- Behaviour of the `index` loop when started at `A^k`: the result is `≥ k`,
the rank stabilises exactly at the result, and at no earlier step. -/
lemma indexAux_spec {n : ℕ} (A : Matrix (Fin n) (Fin n) ℚ) :
    ∀ fuel k, (A ^ k).rank < fuel →
      k ≤ indexAux A fuel k (A ^ k) ∧
      (A ^ indexAux A fuel k (A ^ k)).rank
        = (A ^ (indexAux A fuel k (A ^ k) + 1)).rank ∧
      ∀ j, k ≤ j → j < indexAux A fuel k (A ^ k) →
        (A ^ j).rank ≠ (A ^ (j + 1)).rank := by
  intro fuel
  induction fuel with
  | zero => intro k h; omega
  | succ m ih =>
      intro k h
      have hAA : A * A ^ k = A ^ (k + 1) := (pow_succ' A k).symm
      rw [indexAux, hAA]
      by_cases heq : (A ^ k).rank = (A ^ (k + 1)).rank
      · rw [if_pos heq]
        exact ⟨le_refl k, heq, fun j h1 h2 => absurd (lt_of_le_of_lt h1 h2) (lt_irrefl k)⟩
      · rw [if_neg heq]
        have hle : (A ^ (k + 1)).rank ≤ (A ^ k).rank := by
          rw [← hAA]; exact Matrix.rank_mul_le_right A (A ^ k)
        have hlt : (A ^ (k + 1)).rank < (A ^ k).rank := lt_of_le_of_ne hle (Ne.symm heq)
        obtain ⟨h1, h2, h3⟩ := ih (k + 1) (by omega)
        refine ⟨by omega, h2, ?_⟩
        intro j hj1 hj2
        rcases Nat.eq_or_lt_of_le hj1 with rfl | hj1'
        · exact heq
        · exact h3 j hj1' hj2

/-- C1: for every square matrix `A`, `index A ≤ n`; the result is 0 when the
determinant is distinguishably nonzero, and otherwise it is the first
`k ≥ 1` at which `rank(A^k) = rank(A^(k+1))` (in particular stabilisation
always happens by `k = n`, so the value `n + 1` after the loop is never
returned). -/
theorem index_spec {n : ℕ} (A : Matrix (Fin n) (Fin n) ℚ) :
    index A ≤ n ∧
    (A.det ≠ 0 → index A = 0) ∧
    (A.det = 0 →
      1 ≤ index A ∧
      (A ^ index A).rank = (A ^ (index A + 1)).rank ∧
      ∀ j, 1 ≤ j → j < index A → (A ^ j).rank ≠ (A ^ (j + 1)).rank) := by
  by_cases hdet : A.det = 0
  · have hne : ¬(A.det ≠ 0) := by simpa using hdet
    have hidx : index A = indexAux A n 1 A := by rw [index, if_neg hne]
    have hrk : (A ^ 1).rank < n := by rw [pow_one]; exact rank_lt_of_det_eq_zero A hdet
    have hbound := indexAux_le A n 1 (A ^ 1) hrk
    obtain ⟨h1, h2, h3⟩ := indexAux_spec A n 1 hrk
    have hM : indexAux A n 1 A = indexAux A n 1 (A ^ 1) := by rw [pow_one]
    rw [hidx, hM]
    have hrk' : (A ^ 1).rank < n := hrk
    exact ⟨by omega, fun hc => absurd hdet hc, fun _ => ⟨h1, h2, h3⟩⟩
  · have hidx : index A = 0 := by rw [index, if_pos hdet]
    rw [hidx]
    exact ⟨Nat.zero_le n, fun _ => rfl, fun hc => absurd hc hdet⟩

/-- Witness for C1 at a concrete singular matrix. -/
theorem index_spec_witness :
    index (0 : Matrix (Fin 1) (Fin 1) ℚ) ≤ 1 ∧
    ((0 : Matrix (Fin 1) (Fin 1) ℚ).det = 0 → 1 ≤ index (0 : Matrix (Fin 1) (Fin 1) ℚ)) := by
  refine ⟨(index_spec (0 : Matrix (Fin 1) (Fin 1) ℚ)).1, fun h => ?_⟩
  exact ((index_spec (0 : Matrix (Fin 1) (Fin 1) ℚ)).2.2 h).1

/-- A sum over `Fin n` of a function vanishing from position `k1` on equals the
sum over the leading `k1` positions. -/
lemma sum_split_lead {n k1 : ℕ} (hk : k1 ≤ n) (f : Fin n → ℚ)
    (hf : ∀ l : Fin n, k1 ≤ (l : ℕ) → f l = 0) :
    ∑ l, f l = ∑ l : Fin k1, f (Fin.castLE hk l) := by
  have hemb : ∑ l ∈ Finset.univ.map ⟨Fin.castLE hk, Fin.castLE_injective hk⟩, f l
      = ∑ l : Fin k1, f (Fin.castLE hk l) := Finset.sum_map _ _ _
  rw [← hemb]
  symm
  apply Finset.sum_subset (Finset.subset_univ _)
  intro x _ hx
  apply hf
  by_contra hxk
  push_neg at hxk
  apply hx
  simp only [Finset.mem_map, Finset.mem_univ, Function.Embedding.coeFn_mk, true_and]
  exact ⟨⟨(x : ℕ), hxk⟩, by ext; simp [Fin.castLE]⟩

/-- A sum over `Fin n` of a function vanishing on the leading `k1` positions
equals the sum over the trailing `n - k1` positions. -/
lemma sum_split_trail {n k1 : ℕ} (f : Fin n → ℚ)
    (hf : ∀ l : Fin n, (l : ℕ) < k1 → f l = 0) :
    ∑ l, f l = ∑ l : Fin (n - k1), f ⟨k1 + (l : ℕ), by have := l.isLt; omega⟩ := by
  have hinj : Function.Injective
      (fun l : Fin (n - k1) => (⟨k1 + (l : ℕ), by have := l.isLt; omega⟩ : Fin n)) := by
    intro a b hab
    have : k1 + (a : ℕ) = k1 + (b : ℕ) := congrArg Fin.val hab
    exact Fin.ext (by omega)
  have hemb : ∑ l ∈ Finset.univ.map ⟨_, hinj⟩, f l
      = ∑ l : Fin (n - k1), f ⟨k1 + (l : ℕ), by have := l.isLt; omega⟩ :=
    Finset.sum_map _ _ _
  rw [← hemb]
  symm
  apply Finset.sum_subset (Finset.subset_univ _)
  intro x _ hx
  apply hf
  by_contra hxk
  push_neg at hxk
  apply hx
  simp only [Finset.mem_map, Finset.mem_univ, Function.Embedding.coeFn_mk, true_and]
  exact ⟨⟨(x : ℕ) - k1, by have := x.isLt; omega⟩, Fin.ext (by simp; omega)⟩

/-- Entries of `zBlock` outside the leading rows vanish. -/
lemma zBlock_apply_of_not_lt_left {n k1 : ℕ} (V : Matrix (Fin n) (Fin n) ℚ)
    (hk : k1 ≤ n) {i j : Fin n} (hi : ¬ (i : ℕ) < k1) :
    zBlock V k1 hk i j = 0 := by
  rw [zBlock]
  exact dif_neg (fun h => hi h.1)

/-- Entries of `zBlock` outside the leading columns vanish. -/
lemma zBlock_apply_of_not_lt_right {n k1 : ℕ} (V : Matrix (Fin n) (Fin n) ℚ)
    (hk : k1 ≤ n) {i j : Fin n} (hj : ¬ (j : ℕ) < k1) :
    zBlock V k1 hk i j = 0 := by
  rw [zBlock]
  exact dif_neg (fun h => hj h.2)

/-- Entries of `zBlock` inside the leading block are entries of the inverted
leading block. -/
lemma zBlock_apply_of_lt {n k1 : ℕ} (V : Matrix (Fin n) (Fin n) ℚ)
    (hk : k1 ≤ n) {i j : Fin n} (hi : (i : ℕ) < k1) (hj : (j : ℕ) < k1) :
    zBlock V k1 hk i j = (leadBlock V k1 hk)⁻¹ ⟨i, hi⟩ ⟨j, hj⟩ := by
  rw [zBlock]
  exact dif_pos ⟨hi, hj⟩

/-- `projBlock * zBlock = zBlock`. -/
lemma proj_mul_zBlock {n k1 : ℕ} (V : Matrix (Fin n) (Fin n) ℚ) (hk : k1 ≤ n) :
    projBlock n k1 * zBlock V k1 hk = zBlock V k1 hk := by
  ext i j
  rw [projBlock, Matrix.diagonal_mul]
  by_cases hi : (i : ℕ) < k1
  · rw [if_pos hi, one_mul]
  · rw [if_neg hi, zero_mul, zBlock_apply_of_not_lt_left V hk hi]

/-- `zBlock * projBlock = zBlock`. -/
lemma zBlock_mul_proj {n k1 : ℕ} (V : Matrix (Fin n) (Fin n) ℚ) (hk : k1 ≤ n) :
    zBlock V k1 hk * projBlock n k1 = zBlock V k1 hk := by
  ext i j
  rw [projBlock, Matrix.mul_diagonal]
  by_cases hj : (j : ℕ) < k1
  · rw [if_pos hj, mul_one]
  · rw [if_neg hj, mul_zero, zBlock_apply_of_not_lt_right V hk hj]

/-- If the off-diagonal blocks of `V` vanish and the leading block is
invertible, then `V * Z = projBlock`. -/
lemma mul_zBlock {n k1 : ℕ} (hk : k1 ≤ n) (V : Matrix (Fin n) (Fin n) ℚ)
    (hblk : ∀ i j : Fin n, ¬((i : ℕ) < k1 ↔ (j : ℕ) < k1) → V i j = 0)
    (hM : IsUnit (leadBlock V k1 hk).det) :
    V * zBlock V k1 hk = projBlock n k1 := by
  ext i j
  rw [Matrix.mul_apply]
  by_cases hj : (j : ℕ) < k1
  · have hvan : ∀ l : Fin n, k1 ≤ (l : ℕ) → V i l * zBlock V k1 hk l j = 0 := by
      intro l hl
      rw [zBlock_apply_of_not_lt_left V hk (by omega), mul_zero]
    rw [sum_split_lead hk _ hvan]
    by_cases hi : (i : ℕ) < k1
    · have hterm : ∀ l : Fin k1,
          V i (Fin.castLE hk l) * zBlock V k1 hk (Fin.castLE hk l) j
            = leadBlock V k1 hk ⟨i, hi⟩ l * (leadBlock V k1 hk)⁻¹ l ⟨j, hj⟩ := by
        intro l
        have h1 : V i (Fin.castLE hk l) = leadBlock V k1 hk ⟨i, hi⟩ l := by
          rw [leadBlock]
          congr 1
        have h2 : zBlock V k1 hk (Fin.castLE hk l) j
            = (leadBlock V k1 hk)⁻¹ l ⟨j, hj⟩ := by
          rw [zBlock_apply_of_lt V hk (by simp) hj]
          congr 1
        rw [h1, h2]
      rw [Finset.sum_congr rfl fun l _ => hterm l, ← Matrix.mul_apply,
        Matrix.mul_nonsing_inv _ hM]
      rw [projBlock, Matrix.diagonal_apply, Matrix.one_apply]
      by_cases hij : i = j
      · subst hij
        rw [if_pos rfl, if_pos rfl, if_pos hi]
      · have hmk : ¬(⟨(i : ℕ), hi⟩ : Fin k1) = ⟨(j : ℕ), hj⟩ :=
          fun hc => hij (Fin.ext (Fin.mk_eq_mk.mp hc))
        rw [if_neg hmk, if_neg hij]
    · have hterm : ∀ l : Fin k1,
          V i (Fin.castLE hk l) * zBlock V k1 hk (Fin.castLE hk l) j = 0 := by
        intro l
        rw [hblk i (Fin.castLE hk l)
          (by simp only [Fin.coe_castLE]; intro hc; exact hi (hc.mpr l.isLt)), zero_mul]
      rw [Finset.sum_congr rfl fun l _ => hterm l, Finset.sum_const_zero]
      rw [projBlock, Matrix.diagonal_apply, if_neg (fun hc : i = j => hi (hc ▸ hj))]
  · have hvan : ∀ l ∈ Finset.univ, V i l * zBlock V k1 hk l j = 0 := by
      intro l _
      rw [zBlock_apply_of_not_lt_right V hk hj, mul_zero]
    rw [Finset.sum_congr rfl hvan, Finset.sum_const_zero]
    rw [projBlock, Matrix.diagonal_apply]
    by_cases hij : i = j
    · rw [if_pos hij, if_neg (hij ▸ hj)]
    · rw [if_neg hij]

/-- If the off-diagonal blocks of `V` vanish and the leading block is
invertible, then `Z * V = projBlock`. -/
lemma zBlock_mul {n k1 : ℕ} (hk : k1 ≤ n) (V : Matrix (Fin n) (Fin n) ℚ)
    (hblk : ∀ i j : Fin n, ¬((i : ℕ) < k1 ↔ (j : ℕ) < k1) → V i j = 0)
    (hM : IsUnit (leadBlock V k1 hk).det) :
    zBlock V k1 hk * V = projBlock n k1 := by
  ext i j
  rw [Matrix.mul_apply]
  by_cases hi : (i : ℕ) < k1
  · have hvan : ∀ l : Fin n, k1 ≤ (l : ℕ) → zBlock V k1 hk i l * V l j = 0 := by
      intro l hl
      rw [zBlock_apply_of_not_lt_right V hk (by omega), zero_mul]
    rw [sum_split_lead hk _ hvan]
    by_cases hj : (j : ℕ) < k1
    · have hterm : ∀ l : Fin k1,
          zBlock V k1 hk i (Fin.castLE hk l) * V (Fin.castLE hk l) j
            = (leadBlock V k1 hk)⁻¹ ⟨i, hi⟩ l * leadBlock V k1 hk l ⟨j, hj⟩ := by
        intro l
        have h1 : zBlock V k1 hk i (Fin.castLE hk l)
            = (leadBlock V k1 hk)⁻¹ ⟨i, hi⟩ l := by
          rw [zBlock_apply_of_lt V hk hi (by simp)]
          congr 1
        have h2 : V (Fin.castLE hk l) j = leadBlock V k1 hk l ⟨j, hj⟩ := by
          rw [leadBlock]
          congr 1
        rw [h1, h2]
      rw [Finset.sum_congr rfl fun l _ => hterm l, ← Matrix.mul_apply,
        Matrix.nonsing_inv_mul _ hM]
      rw [projBlock, Matrix.diagonal_apply, Matrix.one_apply]
      by_cases hij : i = j
      · subst hij
        rw [if_pos rfl, if_pos rfl, if_pos hi]
      · have hmk : ¬(⟨(i : ℕ), hi⟩ : Fin k1) = ⟨(j : ℕ), hj⟩ :=
          fun hc => hij (Fin.ext (Fin.mk_eq_mk.mp hc))
        rw [if_neg hmk, if_neg hij]
    · have hterm : ∀ l : Fin k1,
          zBlock V k1 hk i (Fin.castLE hk l) * V (Fin.castLE hk l) j = 0 := by
        intro l
        rw [hblk (Fin.castLE hk l) j
          (by simp only [Fin.coe_castLE]; intro hc; exact hj (hc.mp l.isLt)), mul_zero]
      rw [Finset.sum_congr rfl fun l _ => hterm l, Finset.sum_const_zero]
      rw [projBlock, Matrix.diagonal_apply, if_neg (fun hc : i = j => hj (hc ▸ hi))]
  · have hvan : ∀ l ∈ Finset.univ, zBlock V k1 hk i l * V l j = 0 := by
      intro l _
      rw [zBlock_apply_of_not_lt_left V hk hi, zero_mul]
    rw [Finset.sum_congr rfl hvan, Finset.sum_const_zero]
    rw [projBlock, Matrix.diagonal_apply]
    by_cases hij : i = j
    · rw [if_pos hij, if_neg (hij ▸ hi)]
    · rw [if_neg hij]

/-- Products preserve vanishing off-diagonal blocks. -/
lemma blockDiag_mul {n k1 : ℕ} {V W : Matrix (Fin n) (Fin n) ℚ}
    (hV : ∀ i j : Fin n, ¬((i : ℕ) < k1 ↔ (j : ℕ) < k1) → V i j = 0)
    (hW : ∀ i j : Fin n, ¬((i : ℕ) < k1 ↔ (j : ℕ) < k1) → W i j = 0) :
    ∀ i j : Fin n, ¬((i : ℕ) < k1 ↔ (j : ℕ) < k1) → (V * W) i j = 0 := by
  intro i j hij
  rw [Matrix.mul_apply]
  apply Finset.sum_eq_zero
  intro l _
  by_cases hl : (l : ℕ) < k1
  · by_cases hi : (i : ℕ) < k1
    · have hj : ¬ (j : ℕ) < k1 := fun hj => hij (iff_of_true hi hj)
      rw [hW l j (fun hc => hj (hc.mp hl)), mul_zero]
    · rw [hV i l (fun hc => hi (hc.mpr hl)), zero_mul]
  · by_cases hi : (i : ℕ) < k1
    · rw [hV i l (fun hc => hl (hc.mp hi)), zero_mul]
    · have hj : (j : ℕ) < k1 := by
        by_contra hj
        exact hij (iff_of_false hi hj)
      rw [hW l j (fun hc => hl (hc.mpr hj)), mul_zero]

/-- The trailing block of a product of matrices whose lower-left blocks vanish
is the product of the trailing blocks. -/
lemma trailBlock_mul {n k1 : ℕ} {V W : Matrix (Fin n) (Fin n) ℚ}
    (hV : ∀ i j : Fin n, ¬((i : ℕ) < k1 ↔ (j : ℕ) < k1) → V i j = 0) :
    trailBlock (V * W) k1 = trailBlock V k1 * trailBlock W k1 := by
  ext i j
  rw [trailBlock, Matrix.of_apply, Matrix.mul_apply, Matrix.mul_apply]
  have hvan : ∀ l : Fin n, (l : ℕ) < k1 →
      V ⟨k1 + (i : ℕ), by have := i.isLt; omega⟩ l
        * W l ⟨k1 + (j : ℕ), by have := j.isLt; omega⟩ = 0 := by
    intro l hl
    rw [hV _ l (by simp only [not_iff]; constructor <;> intro h <;> omega), zero_mul]
  rw [sum_split_trail _ hvan]
  apply Finset.sum_congr rfl
  intro l _
  rw [trailBlock, trailBlock, Matrix.of_apply, Matrix.of_apply]

/-- Powers of a block-diagonal matrix are block diagonal with trailing block
the power of the trailing block. -/
lemma blockDiag_pow {n k1 : ℕ} {V : Matrix (Fin n) (Fin n) ℚ}
    (hV : ∀ i j : Fin n, ¬((i : ℕ) < k1 ↔ (j : ℕ) < k1) → V i j = 0) (m : ℕ) :
    (∀ i j : Fin n, ¬((i : ℕ) < k1 ↔ (j : ℕ) < k1) → (V ^ m) i j = 0) ∧
    trailBlock (V ^ m) k1 = trailBlock V k1 ^ m := by
  induction m with
  | zero =>
      refine ⟨?_, ?_⟩
      · intro i j hij
        rw [pow_zero, Matrix.one_apply,
          if_neg (fun hc : i = j => hij (hc ▸ Iff.rfl))]
      · rw [pow_zero, pow_zero]
        ext i j
        rw [trailBlock, Matrix.of_apply, Matrix.one_apply, Matrix.one_apply]
        by_cases hij : i = j
        · subst hij
          rw [if_pos rfl, if_pos rfl]
        · rw [if_neg hij, if_neg (fun hc => hij (Fin.ext (by
            have := Fin.mk_eq_mk.mp hc
            omega)))]
  | succ m ih =>
      refine ⟨?_, ?_⟩
      · rw [pow_succ]
        exact blockDiag_mul ih.1 hV
      · rw [pow_succ, pow_succ, trailBlock_mul ih.1, ih.2]

/-- Nilpotency of the trailing block kills the trailing coordinates of powers:
`V^m * (1 - projBlock) = 0`. -/
lemma pow_mul_one_sub_proj {n k1 : ℕ} {V : Matrix (Fin n) (Fin n) ℚ} (m : ℕ)
    (hV : ∀ i j : Fin n, ¬((i : ℕ) < k1 ↔ (j : ℕ) < k1) → V i j = 0)
    (hN : trailBlock V k1 ^ m = 0) :
    V ^ m * (1 - projBlock n k1) = 0 := by
  have hd : (1 : Matrix (Fin n) (Fin n) ℚ) - projBlock n k1
      = Matrix.diagonal (fun i : Fin n => if (i : ℕ) < k1 then (0 : ℚ) else 1) := by
    ext i j
    by_cases hij : i = j
    · subst hij
      by_cases hi : (i : ℕ) < k1
      · simp [projBlock, Matrix.diagonal_apply, hi]
      · simp [projBlock, Matrix.diagonal_apply, hi]
    · simp [projBlock, Matrix.diagonal_apply, hij]
  ext i j
  rw [hd, Matrix.mul_diagonal, Matrix.zero_apply]
  by_cases hj : (j : ℕ) < k1
  · rw [if_pos hj, mul_zero]
  · rw [if_neg hj, mul_one]
    by_cases hi : (i : ℕ) < k1
    · exact (blockDiag_pow hV m).1 i j (fun hc => hj (hc.mp hi))
    · have htr : trailBlock (V ^ m) k1 = 0 := by
        rw [(blockDiag_pow hV m).2, hN]
      have hi' : (i : ℕ) - k1 < n - k1 := by have := i.isLt; omega
      have hj' : (j : ℕ) - k1 < n - k1 := by have := j.isLt; omega
      have hent := Matrix.ext_iff.mpr htr ⟨(i : ℕ) - k1, hi'⟩ ⟨(j : ℕ) - k1, hj'⟩
      rw [trailBlock, Matrix.of_apply, Matrix.zero_apply] at hent
      have hii : (⟨k1 + ((i : ℕ) - k1), by omega⟩ : Fin n) = i :=
        Fin.ext (show k1 + ((i : ℕ) - k1) = (i : ℕ) by omega)
      have hjj : (⟨k1 + ((j : ℕ) - k1), by omega⟩ : Fin n) = j :=
        Fin.ext (show k1 + ((j : ℕ) - k1) = (j : ℕ) by omega)
      rw [hii, hjj] at hent
      exact hent

/-- Conjugation transport: if `B = U·V·U⁻¹` with `U` invertible and the pair
`(V, Z)` satisfies the projection identities, then `U·Z·U⁻¹` is a Drazin
inverse of `B` at exponent `m`. -/
lemma conj_is_drazin {n : ℕ} (U V Z E B : Matrix (Fin n) (Fin n) ℚ) (m : ℕ)
    (hB : B = U * V * U⁻¹)
    (hU : IsUnit U.det)
    (hVZ : V * Z = E) (hZV : Z * V = E)
    (hEZ : E * Z = Z)
    (hnil : V ^ m * (1 - E) = 0) :
    is_drazin B (U * Z * U⁻¹) m := by
  subst hB
  have hUU : U * U⁻¹ = 1 := Matrix.mul_nonsing_inv _ hU
  have hU'U : U⁻¹ * U = 1 := Matrix.nonsing_inv_mul _ hU
  have cancel : ∀ X : Matrix (Fin n) (Fin n) ℚ, U⁻¹ * (U * X) = X := by
    intro X
    rw [← Matrix.mul_assoc, hU'U, Matrix.one_mul]
  have hmulUXY : ∀ X Y : Matrix (Fin n) (Fin n) ℚ,
      (U * X * U⁻¹) * (U * Y * U⁻¹) = U * (X * Y) * U⁻¹ := by
    intro X Y
    have h1 : (U * X * U⁻¹) * (U * Y * U⁻¹) = U * (X * (U⁻¹ * (U * (Y * U⁻¹)))) := by
      simp only [Matrix.mul_assoc]
    rw [h1, cancel]
    simp only [Matrix.mul_assoc]
  have hpow : ∀ p : ℕ, (U * V * U⁻¹) ^ p = U * V ^ p * U⁻¹ := by
    intro p
    induction p with
    | zero => rw [pow_zero, pow_zero, Matrix.mul_one, hUU]
    | succ q ih => rw [pow_succ, pow_succ, ih, hmulUXY]
  have hVmE : V ^ m * E = V ^ m := by
    have h0 := hnil
    rw [Matrix.mul_sub, Matrix.mul_one, sub_eq_zero] at h0
    exact h0.symm
  refine ⟨?_, ?_, ?_⟩
  · rw [hmulUXY, hmulUXY, hVZ, hZV]
  · rw [hpow (m + 1), hpow m, hmulUXY]
    have hstep : V ^ (m + 1) * Z = V ^ m := by
      rw [pow_succ, Matrix.mul_assoc, hVZ, hVmE]
    rw [hstep]
  · rw [hmulUXY, hmulUXY]
    have hstep : Z * V * Z = Z := by
      rw [hZV, hEZ]
    rw [hstep]

/-- C2: whenever the external Schur and inversion primitives meet their
contract — the hstacked basis `U` is invertible, `V = U⁻¹AU` is block diagonal
with an invertible leading block and a trailing block that is nilpotent at the
exponent `index A` — the output of `drazin_inverse` satisfies the three Drazin
identities with `k = index A`, i.e. `is_drazin A (drazin_inverse A) (index A)`
holds (for singular `A` included). -/
theorem drazin_inverse_is_drazin {n : ℕ} (A Q1 Q2 : Matrix (Fin n) (Fin n) ℚ)
    (k1 : ℕ) (hk : k1 ≤ n)
    (hU : IsUnit (hstackU Q1 Q2 k1).det)
    (hblk : ∀ i j : Fin n, ¬((i : ℕ) < k1 ↔ (j : ℕ) < k1) →
      schurV A Q1 Q2 k1 i j = 0)
    (hM : IsUnit (leadBlock (schurV A Q1 Q2 k1) k1 hk).det)
    (hN : trailBlock (schurV A Q1 Q2 k1) k1 ^ index A = 0) :
    is_drazin A (drazin_inverse A Q1 Q2 k1 hk) (index A) := by
  have hA : A = hstackU Q1 Q2 k1 * schurV A Q1 Q2 k1 * (hstackU Q1 Q2 k1)⁻¹ := by
    rw [schurV]
    have h1 : hstackU Q1 Q2 k1 * ((hstackU Q1 Q2 k1)⁻¹ * A * hstackU Q1 Q2 k1)
          * (hstackU Q1 Q2 k1)⁻¹
        = (hstackU Q1 Q2 k1 * (hstackU Q1 Q2 k1)⁻¹) * (A
          * (hstackU Q1 Q2 k1 * (hstackU Q1 Q2 k1)⁻¹)) := by
      simp only [Matrix.mul_assoc]
    rw [h1, Matrix.mul_nonsing_inv _ hU, Matrix.one_mul, Matrix.mul_one]
  have hdz : drazin_inverse A Q1 Q2 k1 hk
      = hstackU Q1 Q2 k1 * zBlock (schurV A Q1 Q2 k1) k1 hk * (hstackU Q1 Q2 k1)⁻¹ :=
    rfl
  rw [hdz]
  exact conj_is_drazin (hstackU Q1 Q2 k1) (schurV A Q1 Q2 k1)
    (zBlock (schurV A Q1 Q2 k1) k1 hk) (projBlock n k1) A (index A) hA hU
    (mul_zBlock hk _ hblk hM) (zBlock_mul hk _ hblk hM)
    (proj_mul_zBlock _ hk)
    (pow_mul_one_sub_proj (index A) hblk hN)

/-- Witness for C2: the `1 × 1` identity matrix with trivial Schur data
(`Q1 = Q2 = 1`, `k1 = 1`) satisfies every hypothesis of
`drazin_inverse_is_drazin`, and the conclusion is obtained by applying the
theorem there. -/
theorem drazin_inverse_is_drazin_witness :
    IsUnit (hstackU (1 : Matrix (Fin 1) (Fin 1) ℚ) 1 1).det ∧
    is_drazin (1 : Matrix (Fin 1) (Fin 1) ℚ)
      (drazin_inverse 1 1 1 1 (le_refl 1)) (index (1 : Matrix (Fin 1) (Fin 1) ℚ)) := by
  have hstack1 : hstackU (1 : Matrix (Fin 1) (Fin 1) ℚ) 1 1 = 1 := by decide
  have hU : IsUnit (hstackU (1 : Matrix (Fin 1) (Fin 1) ℚ) 1 1).det := by
    rw [hstack1, Matrix.det_one]
    exact isUnit_one
  have hV : schurV (1 : Matrix (Fin 1) (Fin 1) ℚ) 1 1 1 = 1 := by
    rw [schurV, hstack1, inv_one, Matrix.one_mul, Matrix.one_mul]
  refine ⟨hU, ?_⟩
  refine drazin_inverse_is_drazin (1 : Matrix (Fin 1) (Fin 1) ℚ) 1 1 1 (le_refl 1)
    hU ?_ ?_ ?_
  · intro i j h
    exact absurd (iff_of_true i.isLt j.isLt) h
  · rw [hV]
    have hlead : leadBlock (1 : Matrix (Fin 1) (Fin 1) ℚ) 1 (le_refl 1) = 1 := by
      decide
    rw [hlead, Matrix.det_one]
    exact isUnit_one
  · ext i j
    exact absurd i.isLt (Nat.not_lt_zero _)

/-- C9: the notebook's loop-based `laplacian` computes exactly the spec formula
`diag(row sums of A) - A` for every square matrix, and the external csgraph
Laplacian actually invoked by `effective_resistance` agrees with the same
formula on every symmetric matrix, so the two Laplacian computations coincide
on the engine's inputs. -/
theorem laplacian_refinement {n : ℕ} (A : Matrix (Fin n) (Fin n) ℚ) :
    laplacian A = laplacianSpec A ∧
    (Matrix.transpose A = A → csgraph_laplacian A = laplacianSpec A) := by
  constructor
  · ext p q
    rw [laplacian, laplacianSpec, Matrix.sub_apply, Matrix.sub_apply, Matrix.of_apply,
      Matrix.diagonal_apply]
    by_cases hpq : p = q
    · rw [if_pos hpq, if_pos hpq]
      rw [← List.sum_eq_foldl, ← Fin.sum_univ_def]
    · rw [if_neg hpq, if_neg hpq]
  · intro hsym
    have hS : ∀ i j, A j i = A i j := fun i j => congrFun (congrFun hsym i) j
    ext p q
    rw [csgraph_laplacian, laplacianSpec, Matrix.of_apply, Matrix.sub_apply,
      Matrix.diagonal_apply]
    by_cases hpq : p = q
    · rw [if_pos hpq, if_pos hpq]
      subst hpq
      have h1 : Finset.sum (Finset.univ.filter fun i => i ≠ p) (fun i => A i p)
          = Finset.sum (Finset.univ.filter fun i => i ≠ p) (fun i => A p i) := by
        apply Finset.sum_congr rfl
        intro i _
        rw [hS]
      rw [h1, Finset.filter_ne']
      have h2 : ∑ x ∈ Finset.univ.erase p, A p x + A p p = ∑ i, A p i :=
        Finset.sum_erase_add Finset.univ (fun i => A p i) (Finset.mem_univ p)
      have h3 : ∑ x ∈ Finset.univ.erase p, A p x = ∑ i, A p i - A p p := by
        rw [← h2]
        ring
      rw [h3]
    · rw [if_neg hpq, if_neg hpq, zero_sub]

/-- Witness for C9 at a concrete symmetric matrix. -/
theorem laplacian_refinement_witness :
    Matrix.transpose (!![0, 1; 1, 0] : Matrix (Fin 2) (Fin 2) ℚ) = !![0, 1; 1, 0] ∧
    csgraph_laplacian (!![0, 1; 1, 0] : Matrix (Fin 2) (Fin 2) ℚ)
      = laplacianSpec !![0, 1; 1, 0] := by
  have hsym : Matrix.transpose (!![0, 1; 1, 0] : Matrix (Fin 2) (Fin 2) ℚ) = !![0, 1; 1, 0] := by
    decide
  exact ⟨hsym, (laplacian_refinement !![0, 1; 1, 0]).2 hsym⟩

/-- Row `j` of every power of the grounded Laplacian is the `j`-th identity
row. -/
lemma grounded_pow_row {n : ℕ} (A : Matrix (Fin n) (Fin n) ℚ) (j : Fin n) :
    ∀ (m : ℕ) (i : Fin n), ((grounded A j) ^ m) j i = if j = i then 1 else 0 := by
  intro m
  induction m with
  | zero =>
      intro i
      rw [pow_zero, Matrix.one_apply]
  | succ p ih =>
      intro i
      rw [pow_succ', Matrix.mul_apply]
      have hrow : ∀ l, grounded A j j l = if j = l then 1 else 0 := by
        intro l
        rw [grounded, Matrix.updateRow_self]
      have hterm : ∀ l, grounded A j j l * ((grounded A j) ^ p) l i
          = if j = l then ((grounded A j) ^ p) l i else 0 := by
        intro l
        rw [hrow l]
        by_cases hl : j = l
        · rw [if_pos hl, if_pos hl, one_mul]
        · rw [if_neg hl, if_neg hl, zero_mul]
      rw [Finset.sum_congr rfl fun l _ => hterm l, Finset.sum_ite_eq,
        if_pos (Finset.mem_univ j)]
      exact ih i

/-- Any matrix satisfying the Drazin identities for the grounded Laplacian has
the `j`-th identity row as its `j`-th row (the second identity forces it). -/
lemma drazin_grounded_row {n : ℕ} (A : Matrix (Fin n) (Fin n) ℚ) (j : Fin n)
    (X : Matrix (Fin n) (Fin n) ℚ) (k : ℕ)
    (h : is_drazin (grounded A j) X k) :
    ∀ i, X j i = if j = i then 1 else 0 := by
  intro i
  have h2 := h.2.1
  have hrow := congrFun (congrFun h2 j) i
  rw [Matrix.mul_apply] at hrow
  have hterm : ∀ l, ((grounded A j) ^ (k + 1)) j l * X l i
      = if j = l then X l i else 0 := by
    intro l
    rw [grounded_pow_row A j (k + 1) l]
    by_cases hl : j = l
    · rw [if_pos hl, if_pos hl, one_mul]
    · rw [if_neg hl, if_neg hl, zero_mul]
  rw [Finset.sum_congr rfl fun l _ => hterm l, Finset.sum_ite_eq,
    if_pos (Finset.mem_univ j), grounded_pow_row A j k i] at hrow
  exact hrow

/-- C8 (amended): for every adjacency matrix built from undirected pairs
(symmetric, non-negative, zero diagonal), the matrix produced by
`effective_resistance` has every diagonal entry exactly 0 (the grounded row of
each Drazin inverse is the corresponding identity row, so the subtracted
identity zeroes the diagonal); symmetry of `R`, however, can fail when the
graph is disconnected (see `effective_resistance_not_symm`). -/
theorem effective_resistance_zero_diag {n : ℕ} (A R : Matrix (Fin n) (Fin n) ℚ)
    (hsym : Matrix.transpose A = A) (hnonneg : ∀ i j, 0 ≤ A i j)
    (hdiag : ∀ i, A i i = 0)
    (hER : effective_resistance A R) : ∀ j, R j j = 0 := by
  obtain ⟨D, hD, hR⟩ := hER
  intro j
  obtain ⟨k, hk⟩ := hD j
  have hrow := drazin_grounded_row A j (D j) k hk j
  rw [if_pos rfl] at hrow
  rw [hR, Matrix.sub_apply, Matrix.of_apply, Matrix.one_apply, if_pos rfl, hrow,
    sub_self]

/-- Casting an integer matrix to ℚ commutes with multiplication. -/
lemma intMat_mul {n : ℕ} (M N : Matrix (Fin n) (Fin n) ℤ) :
    intMat M * intMat N = intMat (M * N) := by
  ext i j
  simp [intMat, Matrix.mul_apply, Matrix.map_apply]

/-- Casting an integer matrix to ℚ commutes with integer scaling. -/
lemma intMat_smul {n : ℕ} (z : ℤ) (M : Matrix (Fin n) (Fin n) ℤ) :
    intMat (z • M) = (z : ℚ) • intMat M := by
  ext i j
  simp only [intMat, Matrix.map_apply, Matrix.smul_apply, smul_eq_mul]
  push_cast
  ring

/-- `Gdisc j * Ddisc j = Pdisc j`, by integer computation. -/
lemma disc_GD : ∀ j, Gdisc j * Ddisc j = Pdisc j := by
  have hz : ∀ j, GdiscZ j * DdiscZ j = (6 : ℤ) • PdiscZ j := by decide
  intro j
  rw [Gdisc, Ddisc, Pdisc, Matrix.mul_smul, intMat_mul, hz, intMat_smul, smul_smul]
  congr 1
  norm_num

/-- `Ddisc j * Gdisc j = Pdisc j`, by integer computation. -/
lemma disc_DG : ∀ j, Ddisc j * Gdisc j = Pdisc j := by
  have hz : ∀ j, DdiscZ j * GdiscZ j = (6 : ℤ) • PdiscZ j := by decide
  intro j
  rw [Gdisc, Ddisc, Pdisc, Matrix.smul_mul, intMat_mul, hz, intMat_smul, smul_smul]
  congr 1
  norm_num

/-- `Gdisc j * Pdisc j = Gdisc j`, by integer computation. -/
lemma disc_GP : ∀ j, Gdisc j * Pdisc j = Gdisc j := by
  have hz : ∀ j, GdiscZ j * PdiscZ j = (6 : ℤ) • GdiscZ j := by decide
  intro j
  rw [Gdisc, Pdisc, Matrix.mul_smul, intMat_mul, hz, intMat_smul, smul_smul]
  have h6 : ((1 : ℚ)/6 * (6 : ℤ)) = 1 := by norm_num
  rw [h6, one_smul]

/-- `Pdisc j * Ddisc j = Ddisc j`, by integer computation. -/
lemma disc_PD : ∀ j, Pdisc j * Ddisc j = Ddisc j := by
  have hz : ∀ j, PdiscZ j * DdiscZ j = (6 : ℤ) • DdiscZ j := by decide
  intro j
  rw [Pdisc, Ddisc, Matrix.smul_mul, Matrix.mul_smul, intMat_mul, hz, intMat_smul,
    smul_smul, smul_smul]
  congr 1
  norm_num

/-- The doubled-edge products, by integer computation. -/
lemma dup_GD : ∀ j, Gdup j * Ddup j = Pdup j := by
  have hz : ∀ j, GdupZ j * DdupZ j = (2 : ℤ) • PdupZ j := by decide
  intro j
  rw [Gdup, Ddup, Pdup, Matrix.mul_smul, intMat_mul, hz, intMat_smul, smul_smul]
  have h2 : ((1 : ℚ)/2 * (2 : ℤ)) = 1 := by norm_num
  rw [h2, one_smul]

/-- The doubled-edge products commute, by integer computation. -/
lemma dup_DG : ∀ j, Ddup j * Gdup j = Pdup j := by
  have hz : ∀ j, DdupZ j * GdupZ j = (2 : ℤ) • PdupZ j := by decide
  intro j
  rw [Gdup, Ddup, Pdup, Matrix.smul_mul, intMat_mul, hz, intMat_smul, smul_smul]
  have h2 : ((1 : ℚ)/2 * (2 : ℤ)) = 1 := by norm_num
  rw [h2, one_smul]

/-- `Gdup j * Pdup j = Gdup j`, by integer computation. -/
lemma dup_GP : ∀ j, Gdup j * Pdup j = Gdup j := by
  have hz : ∀ j, GdupZ j * PdupZ j = GdupZ j := by decide
  intro j
  rw [Gdup, Pdup, intMat_mul, hz]

/-- `Pdup j * Ddup j = Ddup j`, by integer computation. -/
lemma dup_PD : ∀ j, Pdup j * Ddup j = Ddup j := by
  have hz : ∀ j, PdupZ j * DdupZ j = DdupZ j := by decide
  intro j
  rw [Pdup, Ddup, Matrix.mul_smul, intMat_mul, hz]

/-- The single-edge products, by integer computation. -/
lemma K2_GD : ∀ j, GK2 j * DK2 j = PK2 j := by
  have hz : ∀ j, GK2Z j * DK2Z j = PK2Z j := by decide
  intro j
  rw [GK2, DK2, PK2, intMat_mul, hz]

/-- The single-edge products commute, by integer computation. -/
lemma K2_DG : ∀ j, DK2 j * GK2 j = PK2 j := by
  have hz : ∀ j, DK2Z j * GK2Z j = PK2Z j := by decide
  intro j
  rw [GK2, DK2, PK2, intMat_mul, hz]

/-- `GK2 j * PK2 j = GK2 j`, by integer computation. -/
lemma K2_GP : ∀ j, GK2 j * PK2 j = GK2 j := by
  have hz : ∀ j, GK2Z j * PK2Z j = GK2Z j := by decide
  intro j
  rw [GK2, PK2, intMat_mul, hz]

/-- `PK2 j * DK2 j = DK2 j`, by integer computation. -/
lemma K2_PD : ∀ j, PK2 j * DK2 j = DK2 j := by
  have hz : ∀ j, PK2Z j * DK2Z j = DK2Z j := by decide
  intro j
  rw [PK2, DK2, intMat_mul, hz]

/-- The adjacency matrix built from the duplicated pair list. -/
lemma buildAdj_dup : (buildAdj ffDup : Matrix (Fin 2) (Fin 2) ℚ) = !![0, 2; 2, 0] := by
  have h : (buildAdj ffDup : Matrix (Fin 2) (Fin 2) ℚ)
      = bump (bump (bump (bump (0 : Matrix (Fin 2) (Fin 2) ℚ) 0 1) 1 0) 0 1) 1 0 := rfl
  rw [h]
  ext p q
  fin_cases p <;> fin_cases q <;>
    simp [bump, Matrix.vecHead, Matrix.vecTail] <;> norm_num

/-- The adjacency matrix built from the single-pair list. -/
lemma buildAdj_K2 : (buildAdj ffK2 : Matrix (Fin 2) (Fin 2) ℚ) = !![0, 1; 1, 0] := by
  have h : (buildAdj ffK2 : Matrix (Fin 2) (Fin 2) ℚ)
      = bump (bump (0 : Matrix (Fin 2) (Fin 2) ℚ) 0 1) 1 0 := rfl
  rw [h]
  ext p q
  fin_cases p <;> fin_cases q <;>
    simp [bump, Matrix.vecHead, Matrix.vecTail] <;> norm_num

/-- The adjacency matrix built from the disconnected pair list. -/
lemma buildAdj_disc : (buildAdj ffDisc : Matrix (Fin 5) (Fin 5) ℚ) = Adisc := by
  have h : (buildAdj ffDisc : Matrix (Fin 5) (Fin 5) ℚ)
      = bump (bump (bump (bump (bump (bump (0 : Matrix (Fin 5) (Fin 5) ℚ)
          0 1) 1 0) 2 3) 3 2) 3 4) 4 3 := rfl
  rw [h]
  ext p q
  fin_cases p <;> fin_cases q <;>
    simp [bump, Adisc, Matrix.vecHead, Matrix.vecTail] <;> norm_num

/-- The grounded Laplacians of the doubled edge evaluate to `Gdup`. -/
lemma grounded_dup : ∀ j, grounded (!![0, 2; 2, 0] : Matrix (Fin 2) (Fin 2) ℚ) j = Gdup j := by
  intro j
  fin_cases j <;>
    · ext p q
      fin_cases p <;> fin_cases q <;>
        simp [grounded, Matrix.updateRow_apply, csgraph_laplacian, Gdup, GdupZ, intMat,
          Matrix.map_apply, Finset.sum_filter, Fin.sum_univ_two,
          Matrix.vecHead, Matrix.vecTail] <;> norm_num

/-- The grounded Laplacians of the single edge evaluate to `GK2`. -/
lemma grounded_K2 : ∀ j, grounded (!![0, 1; 1, 0] : Matrix (Fin 2) (Fin 2) ℚ) j = GK2 j := by
  intro j
  fin_cases j <;>
    · ext p q
      fin_cases p <;> fin_cases q <;>
        simp [grounded, Matrix.updateRow_apply, csgraph_laplacian, GK2, GK2Z, intMat,
          Matrix.map_apply, Finset.sum_filter, Fin.sum_univ_two,
          Matrix.vecHead, Matrix.vecTail] <;> norm_num

set_option maxHeartbeats 3200000 in
/-- The grounded Laplacians of the disconnected graph evaluate to `Gdisc`. -/
lemma grounded_disc : ∀ j, grounded Adisc j = Gdisc j := by
  intro j
  fin_cases j <;>
    · ext p q
      fin_cases p <;> fin_cases q <;>
        simp [grounded, Matrix.updateRow_apply, csgraph_laplacian, Adisc, Gdisc, GdiscZ,
          intMat, Matrix.map_apply, Finset.sum_filter, Fin.sum_univ_five,
          Matrix.vecHead, Matrix.vecTail] <;> norm_num

/-- The matrices `Ddisc` are Drazin inverses of the grounded Laplacians of the
disconnected graph (with index 1). -/
lemma disc_is_drazin : ∀ j, is_drazin (grounded Adisc j) (Ddisc j) 1 := by
  intro j
  rw [grounded_disc j]
  refine ⟨?_, ?_, ?_⟩
  · rw [disc_GD j, disc_DG j]
  · rw [pow_succ, pow_one, Matrix.mul_assoc, disc_GD j, disc_GP j]
  · rw [disc_DG j, disc_PD j]

/-- The matrices `Ddup` are Drazin inverses of the grounded Laplacians of the
doubled edge (with index 1). -/
lemma dup_is_drazin : ∀ j, is_drazin (grounded (!![0, 2; 2, 0] : Matrix (Fin 2) (Fin 2) ℚ) j) (Ddup j) 1 := by
  intro j
  rw [grounded_dup j]
  refine ⟨?_, ?_, ?_⟩
  · rw [dup_GD j, dup_DG j]
  · rw [pow_succ, pow_one, Matrix.mul_assoc, dup_GD j, dup_GP j]
  · rw [dup_DG j, dup_PD j]

/-- The matrices `DK2` are Drazin inverses of the grounded Laplacians of the
single edge (with index 1). -/
lemma K2_is_drazin : ∀ j, is_drazin (grounded (!![0, 1; 1, 0] : Matrix (Fin 2) (Fin 2) ℚ) j) (DK2 j) 1 := by
  intro j
  rw [grounded_K2 j]
  refine ⟨?_, ?_, ?_⟩
  · rw [K2_GD j, K2_DG j]
  · rw [pow_succ, pow_one, Matrix.mul_assoc, K2_GD j, K2_GP j]
  · rw [K2_DG j, K2_PD j]

/-- Witness for the amended C8 on the one-node graph. -/
theorem effective_resistance_zero_diag_witness :
    effective_resistance (0 : Matrix (Fin 1) (Fin 1) ℚ) 0 ∧
    ∀ j, (0 : Matrix (Fin 1) (Fin 1) ℚ) j j = 0 := by
  have hg : grounded (0 : Matrix (Fin 1) (Fin 1) ℚ) 0 = 1 := by
    ext p q
    fin_cases p <;> fin_cases q <;>
      simp [grounded, Matrix.updateRow_apply, csgraph_laplacian]
  have h1 : is_drazin (grounded (0 : Matrix (Fin 1) (Fin 1) ℚ) 0) 1 1 := by
    rw [hg]
    exact ⟨rfl, by rw [one_pow, one_pow, Matrix.one_mul],
      by rw [Matrix.one_mul, Matrix.one_mul]⟩
  have hR : (0 : Matrix (Fin 1) (Fin 1) ℚ)
      = Matrix.of (fun j i => (fun _ : Fin 1 => (1 : Matrix (Fin 1) (Fin 1) ℚ)) j i i) - 1 := by
    ext p q
    fin_cases p <;> fin_cases q <;> simp
  have hER : effective_resistance (0 : Matrix (Fin 1) (Fin 1) ℚ) 0 := by
    refine ⟨fun _ => 1, fun j => ⟨1, ?_⟩, hR⟩
    have h0 : j = 0 := Subsingleton.elim _ _
    rw [h0]
    exact h1
  exact ⟨hER, effective_resistance_zero_diag 0 0
    (by rw [Matrix.transpose_zero]) (fun i j => le_refl 0) (fun i => rfl) hER⟩

/-- C8 counterexample: the disconnected graph built from the undirected pairs
`ffDisc` (an edge `a-b` and a path `c-d-e`) has a symmetric, non-negative,
zero-diagonal adjacency matrix, yet the resistance matrix produced by
`effective_resistance` is asymmetric: `R[0,2] = 5/9` while `R[2,0] = 1/4`. -/
theorem effective_resistance_not_symm :
    Matrix.transpose Adisc = Adisc ∧
    (∀ i j, 0 ≤ Adisc i j) ∧
    (∀ i, Adisc i i = 0) ∧
    (buildAdj ffDisc : Matrix (Fin 5) (Fin 5) ℚ) = Adisc ∧
    effective_resistance Adisc Rdisc ∧
    Rdisc 0 2 = 5 / 9 ∧ Rdisc 2 0 = 1 / 4 ∧ Rdisc 0 2 ≠ Rdisc 2 0 := by
  have h02 : Rdisc 0 2 = 5 / 9 := by
    simp [Rdisc, Ddisc, DdiscZ, intMat, Matrix.map_apply, Matrix.one_apply,
      Matrix.vecHead, Matrix.vecTail]
    norm_num
  have h20 : Rdisc 2 0 = 1 / 4 := by
    simp [Rdisc, Ddisc, DdiscZ, intMat, Matrix.map_apply, Matrix.one_apply,
      Matrix.vecHead, Matrix.vecTail]
    norm_num
  refine ⟨?_, ?_, ?_, buildAdj_disc, ⟨Ddisc, fun j => ⟨1, disc_is_drazin j⟩, rfl⟩,
    h02, h20, ?_⟩
  · ext p q
    fin_cases p <;> fin_cases q <;>
      simp [Matrix.transpose_apply, Adisc, Matrix.vecHead, Matrix.vecTail]
  · intro i j
    fin_cases i <;> fin_cases j <;>
      norm_num [Adisc, Matrix.vecHead, Matrix.vecTail]
  · intro i
    fin_cases i <;> norm_num [Adisc, Matrix.vecHead, Matrix.vecTail]
  · rw [h02, h20]
    norm_num

/-- C3: when both names are present, `add_link` raises nothing, sets the two
symmetric adjacency entries to exactly 1, leaves every other adjacency entry
unchanged, and does not touch the resistance matrix, the dictionaries or the
pair list (in particular no recomputation of `R` happens inside `add_link`). -/
theorem add_link_frame {n : ℕ} (s : LinkPredictor n) (a b : String) (i1 i2 : Fin n)
    (h1 : s.index_dict a = some i1) (h2 : s.index_dict b = some i2) :
    (add_link s a b).2 = none ∧
    (add_link s a b).1.A i1 i2 = 1 ∧
    (add_link s a b).1.A i2 i1 = 1 ∧
    (∀ p q, ¬((p = i1 ∧ q = i2) ∨ (p = i2 ∧ q = i1)) →
      (add_link s a b).1.A p q = s.A p q) ∧
    (add_link s a b).1.R = s.R ∧
    (add_link s a b).1.index_dict = s.index_dict ∧
    (add_link s a b).1.name_dict = s.name_dict ∧
    (add_link s a b).1.names_list = s.names_list := by
  have hred : add_link s a b
      = ({ s with A := Matrix.of fun p q =>
            if (p = i1 ∧ q = i2) ∨ (p = i2 ∧ q = i1) then 1 else s.A p q }, none) := by
    simp only [add_link, h1, h2]
  rw [hred]
  refine ⟨rfl, ?_, ?_, ?_, rfl, rfl, rfl, rfl⟩
  · simp
  · simp
  · intro p q hpq
    exact if_neg hpq

/-- Witness for C3 on a concrete two-node state. -/
theorem add_link_frame_witness :
    Sw.index_dict "a" = some 0 ∧ Sw.index_dict "b" = some 1 ∧
    (add_link Sw "a" "b").2 = none ∧ (add_link Sw "a" "b").1.A 0 1 = 1 ∧
    (add_link Sw "a" "b").1.R = Sw.R := by
  have h1 : Sw.index_dict "a" = some 0 := rfl
  have h2 : Sw.index_dict "b" = some 1 := rfl
  have h := add_link_frame Sw "a" "b" 0 1 h1 h2
  exact ⟨h1, h2, h.1, h.2.1, h.2.2.2.2.1⟩

/-- C10: if either name is missing, `add_link` raises the `ValueError` before
mutating anything; the state component of the result is exactly the input
state. -/
theorem add_link_atomic_error {n : ℕ} (s : LinkPredictor n) (a b : String)
    (h : s.index_dict a = none ∨ s.index_dict b = none) :
    add_link s a b = (s, some "nodes need to be in the graph") := by
  rcases h with h | h
  · rcases hb : s.index_dict b with _ | i2 <;> simp [add_link, h, hb]
  · rcases ha : s.index_dict a with _ | i1 <;> simp [add_link, h, ha]

/-- Witness for C10 on a concrete failing call. -/
theorem add_link_atomic_error_witness :
    Sw.index_dict "zz" = none ∧
    add_link Sw "a" "zz" = (Sw, some "nodes need to be in the graph") := by
  have h : Sw.index_dict "zz" = none := rfl
  exact ⟨h, add_link_atomic_error Sw "a" "zz" (Or.inr h)⟩

/-- C4 (amended): no adjacency entry ever drops below `min(old, 1)` under
`add_link` (the only mutator): untouched entries are unchanged and touched
entries are overwritten with 1, which can decrease an entry whose accumulated
weight exceeded 1 but never below 1. -/
theorem add_link_entry_lower_bound {n : ℕ} (s : LinkPredictor n) (a b : String)
    (i j : Fin n) :
    min (s.A i j) 1 ≤ (add_link s a b).1.A i j := by
  have h : (add_link s a b).1.A i j = s.A i j ∨ (add_link s a b).1.A i j = 1 := by
    rcases ha : s.index_dict a with _ | i1
    · left
      rcases hb : s.index_dict b with _ | i2 <;> simp [add_link, ha, hb]
    · rcases hb : s.index_dict b with _ | i2
      · left
        simp [add_link, ha, hb]
      · simp only [add_link, ha, hb]
        by_cases hc : (i = i1 ∧ j = i2) ∨ (i = i2 ∧ j = i1)
        · right
          simp [if_pos hc]
        · left
          simp [if_neg hc]
  rcases h with h | h
  · rw [h]
    exact min_le_left _ _
  · rw [h]
    exact min_le_right _ _

/-- C4 counterexample: the state constructed from the duplicated pair list is
reachable, its adjacency entry `(0,1)` has accumulated weight 2, and a
successful `add_link` on the same pair overwrites it with 1 — a strict
decrease. -/
theorem add_link_decreases_entry :
    Reachable Sdup ∧ Sdup.A 0 1 = 2 ∧ (add_link Sdup "a" "b").2 = none ∧
    (add_link Sdup "a" "b").1.A 0 1 = 1 ∧
    (add_link Sdup "a" "b").1.A 0 1 < Sdup.A 0 1 := by
  have hA : Sdup.A = !![0, 2; 2, 0] := buildAdj_dup
  have hA01 : Sdup.A 0 1 = 2 := by
    rw [hA]
    simp
  have hRdup : Sdup.R = Matrix.of (fun j i => Ddup j i i) - 1 := by
    ext p q
    fin_cases p <;> fin_cases q <;>
      simp [Sdup, Ddup, DdupZ, intMat, Matrix.map_apply, Matrix.one_apply,
        Matrix.vecHead, Matrix.vecTail] <;> norm_num
  have hreach : Reachable Sdup := by
    refine Reachable.constructed ffDup Sdup ⟨rfl, rfl, rfl, rfl, ?_⟩
    refine ⟨Ddup, fun j => ⟨1, ?_⟩, hRdup⟩
    have : Sdup.A = !![0, 2; 2, 0] := hA
    rw [show (Sdup.A : Matrix (Fin 2) (Fin 2) ℚ) = !![0, 2; 2, 0] from hA]
    exact dup_is_drazin j
  have ha : Sdup.index_dict "a" = some 0 := rfl
  have hb : Sdup.index_dict "b" = some 1 := rfl
  have hnew : (add_link Sdup "a" "b").1.A 0 1 = 1 := by
    simp [add_link, ha, hb]
  refine ⟨hreach, hA01, by simp [add_link, ha, hb], hnew, ?_⟩
  rw [hnew, hA01]
  norm_num

/-- C7 (amended): `add_link` raises exactly when one of the two names is
absent, the per-node `predict_link` raises exactly when the queried name is
absent, and the global `predict_link` raises exactly on the empty model
(`n = 0`, where `np.argmin` fails on an empty array) — this last error is the
one case not covered by the claim's NotFound taxonomy. -/
theorem model_errors {n : ℕ} (s : LinkPredictor n) (a b x : String) :
    ((add_link s a b).2 ≠ none ↔ (s.index_dict a = none ∨ s.index_dict b = none)) ∧
    ((∃ e, predict_link_some s x = Except.error e) ↔ s.index_dict x = none) ∧
    ((∃ e, predict_link_none s = Except.error e) ↔ n = 0) := by
  refine ⟨?_, ?_, ?_⟩
  · constructor
    · intro h
      by_contra hc
      push_neg at hc
      rcases ha : s.index_dict a with _ | i1
      · exact hc.1 ha
      · rcases hb : s.index_dict b with _ | i2
        · exact hc.2 hb
        · have h2 : (add_link s a b).2 = none := by simp [add_link, ha, hb]
          exact h h2
    · intro h
      rw [add_link_atomic_error s a b h]
      simp
  · constructor
    · intro ⟨e, he⟩
      rcases hx : s.index_dict x with _ | i1
      · rfl
      · rw [predict_link_some, hx] at he
        exact absurd he (by simp)
    · intro h
      rw [predict_link_some, h]
      exact ⟨"Node not in graph", rfl⟩
  · constructor
    · intro ⟨e, he⟩
      by_contra hc
      have hn : 0 < n := Nat.pos_of_ne_zero hc
      rw [predict_link_none, dif_pos hn] at he
      exact absurd he (by simp)
    · intro h
      subst h
      rw [predict_link_none, dif_neg (by omega)]
      exact ⟨_, rfl⟩

/-- C7 counterexample: on the empty model (zero nodes, built from an empty
pair list) the global `predict_link` raises `np.argmin`'s `ValueError`, an
error outside the NotFound taxonomy. -/
theorem predict_link_none_empty_error :
    predict_link_none Sempty
      = Except.error "attempt to get argmin of an empty sequence" := rfl

/-- Behaviour of `np.argmin`'s scan: either no element beats the incumbent
best value (and the incumbent index is returned), or the first, smallest
element strictly below the incumbent is selected. -/
lemma argminAux_spec (xs : List ℚ) : ∀ bv bi ci,
    (argminAux xs bv bi ci = bi ∧ ∀ m, m < xs.length → bv ≤ xs.getD m 0) ∨
    (∃ m, m < xs.length ∧ argminAux xs bv bi ci = ci + m ∧ xs.getD m 0 < bv ∧
      (∀ l, l < xs.length → xs.getD m 0 ≤ xs.getD l 0) ∧
      (∀ l, l < m → xs.getD m 0 < xs.getD l 0)) := by
  induction xs with
  | nil =>
      intro bv bi ci
      left
      exact ⟨rfl, fun m hm => absurd hm (by simp)⟩
  | cons x xs ih =>
      intro bv bi ci
      rw [argminAux]
      by_cases hx : x < bv
      · rw [if_pos hx]
        rcases ih x ci (ci + 1) with ⟨h1, h2⟩ | ⟨m, hm, h1, h2, h3, h4⟩
        · right
          refine ⟨0, by simp, by rw [h1]; omega, by rw [List.getD_cons_zero]; exact hx, ?_,
            fun l hl => absurd hl (by omega)⟩
          intro l hl
          rw [List.getD_cons_zero]
          cases l with
          | zero => rw [List.getD_cons_zero]
          | succ l' =>
              rw [List.getD_cons_succ]
              exact h2 l' (by simpa using hl)
        · right
          refine ⟨m + 1, by simpa using hm, by rw [h1]; omega, ?_, ?_, ?_⟩
          · rw [List.getD_cons_succ]
            exact lt_trans h2 hx
          · intro l hl
            rw [List.getD_cons_succ]
            cases l with
            | zero =>
                rw [List.getD_cons_zero]
                exact le_of_lt h2
            | succ l' =>
                rw [List.getD_cons_succ]
                exact h3 l' (by simpa using hl)
          · intro l hl
            rw [List.getD_cons_succ]
            cases l with
            | zero =>
                rw [List.getD_cons_zero]
                exact h2
            | succ l' =>
                rw [List.getD_cons_succ]
                exact h4 l' (by omega)
      · rw [if_neg hx]
        push_neg at hx
        rcases ih bv bi (ci + 1) with ⟨h1, h2⟩ | ⟨m, hm, h1, h2, h3, h4⟩
        · left
          refine ⟨h1, ?_⟩
          intro l hl
          cases l with
          | zero =>
              rw [List.getD_cons_zero]
              exact hx
          | succ l' =>
              rw [List.getD_cons_succ]
              exact h2 l' (by simpa using hl)
        · right
          refine ⟨m + 1, by simpa using hm, by rw [h1]; omega, ?_, ?_, ?_⟩
          · rw [List.getD_cons_succ]
            exact h2
          · intro l hl
            rw [List.getD_cons_succ]
            cases l with
            | zero =>
                rw [List.getD_cons_zero]
                exact le_trans (le_of_lt h2) hx
            | succ l' =>
                rw [List.getD_cons_succ]
                exact h3 l' (by simpa using hl)
          · intro l hl
            rw [List.getD_cons_succ]
            cases l with
            | zero =>
                rw [List.getD_cons_zero]
                exact lt_of_lt_of_le h2 hx
            | succ l' =>
                rw [List.getD_cons_succ]
                exact h4 l' (by omega)

/-- `np.argmin` on a nonempty list returns an in-range index holding the
minimum value, and every strictly earlier position holds a strictly larger
value (first-occurrence tie-breaking). -/
lemma argminIdx_spec (l : List ℚ) (h : l ≠ []) :
    argminIdx l < l.length ∧
    (∀ m, m < l.length → l.getD (argminIdx l) 0 ≤ l.getD m 0) ∧
    (∀ m, m < argminIdx l → l.getD (argminIdx l) 0 < l.getD m 0) := by
  cases l with
  | nil => exact absurd rfl h
  | cons x xs =>
      rw [argminIdx]
      rcases argminAux_spec xs x 0 1 with ⟨h1, h2⟩ | ⟨m, hm, h1, h2, h3, h4⟩
      · rw [h1]
        refine ⟨by simp, ?_, fun m hm => absurd hm (by omega)⟩
        intro m hmlen
        rw [List.getD_cons_zero]
        cases m with
        | zero => rw [List.getD_cons_zero]
        | succ m' =>
            rw [List.getD_cons_succ]
            exact h2 m' (by simpa using hmlen)
      · rw [h1]
        have hgd : (x :: xs).getD (1 + m) 0 = xs.getD m 0 := by
          rw [Nat.add_comm, List.getD_cons_succ]
        rw [hgd]
        refine ⟨by simp; omega, ?_, ?_⟩
        · intro l hl
          cases l with
          | zero =>
              rw [List.getD_cons_zero]
              exact le_of_lt h2
          | succ l' =>
              rw [List.getD_cons_succ]
              exact h3 l' (by simpa using hl)
        · intro l hl
          cases l with
          | zero =>
              rw [List.getD_cons_zero]
              exact h2
          | succ l' =>
              rw [List.getD_cons_succ]
              exact h4 l' (by omega)

/-- Powers absorb a Drazin inverse beyond the index: `A ^ (m+1) * X = A ^ m`
for `m` at least the index. -/
lemma pow_mul_drazin {n : ℕ} {A X : Matrix (Fin n) (Fin n) ℚ} {kx : ℕ}
    (h : is_drazin A X kx) : ∀ m, kx ≤ m → A ^ (m + 1) * X = A ^ m := by
  intro m hm
  obtain ⟨h1, h2, h3⟩ := h
  have hsplit : A ^ (m + 1) = A ^ (m - kx) * A ^ (kx + 1) := by
    rw [← pow_add]
    congr 1
    omega
  rw [hsplit, Matrix.mul_assoc, h2, ← pow_add]
  congr 1
  omega

/-- Uniqueness of the Drazin inverse: any two matrices satisfying the
`is_drazin` identities for the same `A` (with possibly different indices)
coincide.  This pins down the matrices the notebook's `drazin_inverse`
computes, so the relational `effective_resistance` determines `R` uniquely. -/
lemma drazin_unique {n : ℕ} {A X Y : Matrix (Fin n) (Fin n) ℚ} {kx ky : ℕ}
    (hX : is_drazin A X kx) (hY : is_drazin A Y ky) : X = Y := by
  have hpX : ∀ m, kx ≤ m → A ^ (m + 1) * X = A ^ m := pow_mul_drazin hX
  have hpY : ∀ m, ky ≤ m → A ^ (m + 1) * Y = A ^ m := pow_mul_drazin hY
  obtain ⟨hxc, hx2, hx3⟩ := hX
  obtain ⟨hyc, hy2, hy3⟩ := hY
  have hCX : Commute A X := hxc
  have hCY : Commute A Y := hyc
  set k := max kx ky with hk
  set E := A * X with hE
  set F := A * Y with hF
  have hXE : X * E = X := by
    rw [hE, ← Matrix.mul_assoc, hx3]
  have hEE : E * E = E := by
    rw [hE, Matrix.mul_assoc A X (A * X), ← Matrix.mul_assoc X A X, hx3]
  have hFF : F * F = F := by
    rw [hF, Matrix.mul_assoc A Y (A * Y), ← Matrix.mul_assoc Y A Y, hy3]
  have hEpow : ∀ m, E ^ (m + 1) = E := by
    intro m
    induction m with
    | zero => rw [pow_one]
    | succ m ih => rw [pow_succ, ih, hEE]
  have hFpow : ∀ m, F ^ (m + 1) = F := by
    intro m
    induction m with
    | zero => rw [pow_one]
    | succ m ih => rw [pow_succ, ih, hFF]
  have hEform : E = A ^ (k + 1) * X ^ (k + 1) := by
    rw [← hEpow k, hE, hCX.mul_pow]
  have hFform : F = A ^ (k + 1) * Y ^ (k + 1) := by
    rw [← hFpow k, hF, hCY.mul_pow]
  have hEA : E * A ^ (k + 1) = A ^ (k + 1) := by
    rw [hE, Matrix.mul_assoc, (hCX.symm.pow_right (k + 1)).eq, ← Matrix.mul_assoc,
      ← pow_succ', hpX (k + 1) (by omega)]
  have hAF : A ^ (k + 1 + 1) * Y = A ^ (k + 1) := hpY (k + 1) (by omega)
  have hEF_F : E * F = F := by
    rw [hFform, ← Matrix.mul_assoc, hEA]
  have hEF_E : E * F = E := by
    rw [hEform, hF, ← (hCX.symm.pow_pow (k + 1) (k + 1)).eq, Matrix.mul_assoc,
      ← Matrix.mul_assoc (A ^ (k + 1)) A Y, ← pow_succ, hAF]
  have hEFeq : E = F := by rw [← hEF_E, hEF_F]
  calc X = X * E := hXE.symm
    _ = X * F := by rw [hEFeq]
    _ = X * A * Y := by rw [hF, ← Matrix.mul_assoc]
    _ = A * X * Y := by rw [hCX.eq]
    _ = E * Y := by rw [hE]
    _ = F * Y := by rw [hEFeq]
    _ = Y * A * Y := by rw [hF, hCY.eq]
    _ = Y := hy3

/-- Length of a `flatMap` whose blocks all have length `m`. -/
lemma flatMap_const_length {α : Type} (g : α → List ℚ) (m : ℕ)
    (hm : ∀ a, (g a).length = m) (l : List α) :
    (l.flatMap g).length = l.length * m := by
  induction l with
  | nil => simp
  | cons a l ih =>
      simp only [List.flatMap_cons, List.length_append, hm a, ih, List.length_cons]
      ring

/-- Entry `i * m + j` of such a `flatMap` is entry `j` of block `i`. -/
lemma flatMap_const_getD {α : Type} (g : α → List ℚ) (m : ℕ)
    (hm : ∀ a, (g a).length = m) :
    ∀ (l : List α) (i j : ℕ) (hi : i < l.length), j < m →
      (l.flatMap g).getD (i * m + j) 0 = (g (l.get ⟨i, hi⟩)).getD j 0 := by
  intro l
  induction l with
  | nil =>
      intro i j hi hj
      exact absurd hi (by simp)
  | cons a l ih =>
      intro i j hi hj
      rw [List.flatMap_cons]
      cases i with
      | zero =>
          rw [Nat.zero_mul, Nat.zero_add,
            List.getD_append _ _ _ _ (by rw [hm a]; exact hj)]
          rfl
      | succ i' =>
          have hle : (g a).length ≤ (i' + 1) * m + j := by
            rw [hm a]
            nlinarith
          rw [List.getD_append_right _ _ _ _ hle]
          have harith : (i' + 1) * m + j - (g a).length = i' * m + j := by
            rw [hm a]
            have h1 : (i' + 1) * m = i' * m + m := by ring
            omega
          rw [harith]
          exact ih i' j (by simpa using hi) hj

/-- Entry `q` of the list of values of `f` over `Fin n`. -/
lemma row_list_getD {n : ℕ} (f : Fin n → ℚ) (q : Fin n) :
    ((List.finRange n).map f).getD (q : ℕ) 0 = f q := by
  rw [List.getD_eq_getElem _ _ (by simp)]
  simp

/-- The flattening of an `n × n` matrix has length `n * n`. -/
lemma flattenM_length {n : ℕ} (M : Matrix (Fin n) (Fin n) ℚ) :
    (flattenM M).length = n * n := by
  rw [flattenM, flatMap_const_length _ n (fun i => by simp), List.length_finRange]

/-- Entry `p * n + q` of the row-major flattening is the entry `M p q`. -/
lemma flattenM_getD {n : ℕ} (M : Matrix (Fin n) (Fin n) ℚ) (p q : Fin n) :
    (flattenM M).getD ((p : ℕ) * n + (q : ℕ)) 0 = M p q := by
  rw [flattenM,
    flatMap_const_getD _ n (fun i => by simp) (List.finRange n) p q (by simp) q.isLt]
  have hget : (List.finRange n).get ⟨(p : ℕ), by simp⟩ = p := by
    simp [List.get_eq_getElem]
  rw [hget, row_list_getD]

/-- Characterisation of the global `predict_link` on a nonempty model: it
returns the names of the row-major-first pair minimising the muted matrix. -/
lemma exists_argmin_pair {n : ℕ} (s : LinkPredictor n) (hn : 0 < n) :
    ∃ i j : Fin n,
      predict_link_none s = Except.ok (s.name_dict i, s.name_dict j) ∧
      (∀ p q : Fin n, R_mute s i j ≤ R_mute s p q) ∧
      (∀ p q : Fin n, (p : ℕ) * n + (q : ℕ) < (i : ℕ) * n + (j : ℕ) →
        R_mute s i j < R_mute s p q) := by
  have hlen : (flattenM (R_mute s)).length = n * n := flattenM_length _
  have hne : flattenM (R_mute s) ≠ [] := by
    intro h
    rw [h] at hlen
    simp only [List.length_nil] at hlen
    nlinarith
  obtain ⟨hq1, hq2, hq3⟩ := argminIdx_spec _ hne
  rw [hlen] at hq1
  have hdiv : argminIdx (flattenM (R_mute s)) / n < n :=
    (Nat.div_lt_iff_lt_mul hn).mpr hq1
  have hmod : argminIdx (flattenM (R_mute s)) % n < n := Nat.mod_lt _ hn
  refine ⟨⟨_, hdiv⟩, ⟨_, hmod⟩, ?_, ?_, ?_⟩
  · simp only [predict_link_none]
    rw [dif_pos hn]
    congr 2
    exact congrArg s.name_dict (Fin.ext (Nat.mod_eq_of_lt hdiv))
  · intro p q
    have hlt : (p : ℕ) * n + (q : ℕ) < (flattenM (R_mute s)).length := by
      rw [hlen]
      have h1 : (p : ℕ) * n + (q : ℕ) < ((p : ℕ) + 1) * n := by
        have := q.isLt
        ring_nf
        omega
      have h2 : ((p : ℕ) + 1) * n ≤ n * n := Nat.mul_le_mul_right n p.isLt
      omega
    have hget : (flattenM (R_mute s)).getD (argminIdx (flattenM (R_mute s))) 0
        = R_mute s ⟨_, hdiv⟩ ⟨_, hmod⟩ := by
      rw [← flattenM_getD (R_mute s) ⟨_, hdiv⟩ ⟨_, hmod⟩]
      congr 1
      exact (Nat.div_add_mod' _ n).symm
    rw [← hget, ← flattenM_getD (R_mute s) p q]
    exact hq2 _ hlt
  · intro p q hpq
    have hget : (flattenM (R_mute s)).getD (argminIdx (flattenM (R_mute s))) 0
        = R_mute s ⟨_, hdiv⟩ ⟨_, hmod⟩ := by
      rw [← flattenM_getD (R_mute s) ⟨_, hdiv⟩ ⟨_, hmod⟩]
      congr 1
      exact (Nat.div_add_mod' _ n).symm
    have hval1 : ((⟨argminIdx (flattenM (R_mute s)) / n, hdiv⟩ : Fin n) : ℕ)
        = argminIdx (flattenM (R_mute s)) / n := rfl
    have hval2 : ((⟨argminIdx (flattenM (R_mute s)) % n, hmod⟩ : Fin n) : ℕ)
        = argminIdx (flattenM (R_mute s)) % n := rfl
    rw [hval1, hval2] at hpq
    have hlt : (p : ℕ) * n + (q : ℕ) < argminIdx (flattenM (R_mute s)) := by
      have := Nat.div_add_mod' (argminIdx (flattenM (R_mute s))) n
      omega
    rw [← hget, ← flattenM_getD (R_mute s) p q]
    exact hq3 _ hlt

/-- Characterisation of the per-node `predict_link` on a known node: it
returns the name of the first index minimising the node's row of the muted
matrix. -/
lemma exists_argmin_row {n : ℕ} (s : LinkPredictor n) (x : String) (i1 : Fin n)
    (hx : s.index_dict x = some i1) :
    ∃ j : Fin n,
      predict_link_some s x = Except.ok (s.name_dict j) ∧
      (∀ q : Fin n, R_mute s i1 j ≤ R_mute s i1 q) ∧
      (∀ q : Fin n, (q : ℕ) < (j : ℕ) → R_mute s i1 j < R_mute s i1 q) := by
  have hlen : ((List.finRange n).map fun j => R_mute s i1 j).length = n := by simp
  have hne : ((List.finRange n).map fun j => R_mute s i1 j) ≠ [] := by
    intro h
    rw [h] at hlen
    simp only [List.length_nil] at hlen
    exact absurd hlen.symm (Nat.pos_iff_ne_zero.mp i1.pos)
  obtain ⟨hq1, hq2, hq3⟩ := argminIdx_spec _ hne
  rw [hlen] at hq1
  refine ⟨⟨_, hq1⟩, ?_, ?_, ?_⟩
  · simp only [predict_link_some, hx]
    exact congrArg Except.ok
      (congrArg s.name_dict (Fin.ext (Nat.mod_eq_of_lt hq1)))
  · intro q
    have hg1 : ((List.finRange n).map fun j => R_mute s i1 j).getD
        (argminIdx ((List.finRange n).map fun j => R_mute s i1 j)) 0
        = R_mute s i1 ⟨_, hq1⟩ := row_list_getD _ ⟨_, hq1⟩
    have hg2 : ((List.finRange n).map fun j => R_mute s i1 j).getD (q : ℕ) 0
        = R_mute s i1 q := row_list_getD _ q
    rw [← hg1, ← hg2]
    exact hq2 _ (by rw [hlen]; exact q.isLt)
  · intro q hqlt
    have hg1 : ((List.finRange n).map fun j => R_mute s i1 j).getD
        (argminIdx ((List.finRange n).map fun j => R_mute s i1 j)) 0
        = R_mute s i1 ⟨_, hq1⟩ := row_list_getD _ ⟨_, hq1⟩
    have hg2 : ((List.finRange n).map fun j => R_mute s i1 j).getD (q : ℕ) 0
        = R_mute s i1 q := row_list_getD _ q
    rw [← hg1, ← hg2]
    exact hq3 _ hqlt

/-- C5: on any model state with at least one node, the global `predict_link`
returns the pair of node names whose index pair attains the global minimum of
the muted matrix `R_mute = 999 • (A + 1) + R` (999 is the notebook's
`LARGE_CONSTANT`), with ties broken by the first minimum encountered in the
row-major scan of the flattened matrix. -/
theorem predict_link_none_spec {n : ℕ} (s : LinkPredictor n) (hn : 0 < n) :
    ∃ i j : Fin n,
      predict_link_none s = Except.ok (s.name_dict i, s.name_dict j) ∧
      (∀ p q : Fin n, R_mute s i j ≤ R_mute s p q) ∧
      (∀ p q : Fin n, (p : ℕ) * n + (q : ℕ) < (i : ℕ) * n + (j : ℕ) →
        R_mute s i j < R_mute s p q) :=
  exists_argmin_pair s hn

/-- Witness for C5 on the two-node state `Sw`. -/
theorem predict_link_none_spec_witness :
    (0 : ℕ) < 2 ∧
    ∃ i j : Fin 2,
      predict_link_none Sw = Except.ok (Sw.name_dict i, Sw.name_dict j) ∧
      (∀ p q : Fin 2, R_mute Sw i j ≤ R_mute Sw p q) ∧
      (∀ p q : Fin 2, (p : ℕ) * 2 + (q : ℕ) < (i : ℕ) * 2 + (j : ℕ) →
        R_mute Sw i j < R_mute Sw p q) :=
  ⟨by decide, predict_link_none_spec Sw (by decide)⟩

/-- C6 (amended): on a model whose adjacency and resistance matrices have
zero diagonal and whose name dictionary is consistent, `predict_link` never
recommends a node to itself *provided* a strictly better off-diagonal
candidate exists — i.e. some unlinked pair (resp. some unlinked partner of
the queried node) whose resistance is below `LARGE_CONSTANT = 999`.  Without
that proviso the claim fails (see `predict_link_self_recommendation`). -/
theorem predict_link_no_self {n : ℕ} (s : LinkPredictor n)
    (hA : ∀ i, s.A i i = 0) (hR : ∀ i, s.R i i = 0)
    (hinj : Function.Injective s.name_dict)
    (hcompat : ∀ x i, s.index_dict x = some i → s.name_dict i = x) :
    (∀ p q : Fin n, p ≠ q → s.A p q = 0 → s.R p q < 999 →
      ∃ i j : Fin n, i ≠ j ∧
        predict_link_none s = Except.ok (s.name_dict i, s.name_dict j) ∧
        s.name_dict i ≠ s.name_dict j) ∧
    (∀ x : String, ∀ i1 : Fin n, s.index_dict x = some i1 →
      (∃ q : Fin n, q ≠ i1 ∧ s.A i1 q = 0 ∧ s.R i1 q < 999) →
      ∃ j : Fin n, j ≠ i1 ∧ predict_link_some s x = Except.ok (s.name_dict j) ∧
        s.name_dict j ≠ x) := by
  have hdiag : ∀ i : Fin n, R_mute s i i = 999 := by
    intro i
    simp only [R_mute, Matrix.add_apply, Matrix.smul_apply, Matrix.one_apply_eq,
      hA i, hR i, smul_eq_mul]
    norm_num
  have hoff : ∀ p q : Fin n, p ≠ q → s.A p q = 0 → R_mute s p q = s.R p q := by
    intro p q hpq hApq
    simp only [R_mute, Matrix.add_apply, Matrix.smul_apply, hApq,
      Matrix.one_apply_ne hpq, smul_eq_mul]
    norm_num
  constructor
  · intro p q hpq hApq hRpq
    obtain ⟨i, j, hok, hmin, _⟩ := exists_argmin_pair s p.pos
    refine ⟨i, j, ?_, hok, ?_⟩
    · intro hij
      have h1 : R_mute s i j ≤ R_mute s p q := hmin p q
      rw [hij, hdiag j, hoff p q hpq hApq] at h1
      exact absurd (lt_of_le_of_lt h1 hRpq) (lt_irrefl _)
    · intro heq
      have h1 : R_mute s i j ≤ R_mute s p q := hmin p q
      have hij : i = j := hinj heq
      rw [hij, hdiag j, hoff p q hpq hApq] at h1
      exact absurd (lt_of_le_of_lt h1 hRpq) (lt_irrefl _)
  · intro x i1 hx ⟨q, hq, hAq, hRq⟩
    obtain ⟨j, hok, hmin, _⟩ := exists_argmin_row s x i1 hx
    have hne : j ≠ i1 := by
      intro hij
      have h1 : R_mute s i1 j ≤ R_mute s i1 q := hmin q
      rw [hij, hdiag i1, hoff i1 q (fun h => hq h.symm) hAq] at h1
      exact absurd (lt_of_le_of_lt h1 hRq) (lt_irrefl _)
    refine ⟨j, hne, hok, ?_⟩
    intro heq
    rw [← hcompat x i1 hx] at heq
    exact hne (hinj heq)

/-- Witness for the amended C6 on the two-node state `Sw`: the global
recommendation pairs two distinct names, and the per-node recommendation for
`"a"` is a different node. -/
theorem predict_link_no_self_witness :
    (∃ i j : Fin 2, i ≠ j ∧
        predict_link_none Sw = Except.ok (Sw.name_dict i, Sw.name_dict j) ∧
        Sw.name_dict i ≠ Sw.name_dict j) ∧
    (∃ j : Fin 2, j ≠ 0 ∧ predict_link_some Sw "a" = Except.ok (Sw.name_dict j) ∧
        Sw.name_dict j ≠ "a") := by
  have hA : ∀ i : Fin 2, Sw.A i i = 0 := fun i => rfl
  have hR : ∀ i : Fin 2, Sw.R i i = 0 := by
    intro i
    fin_cases i <;> simp [Sw, Matrix.vecHead, Matrix.vecTail]
  have hinj : Function.Injective Sw.name_dict := by
    intro i j hij
    fin_cases i <;> fin_cases j <;> revert hij <;> decide
  have hcompat : ∀ x : String, ∀ i : Fin 2,
      Sw.index_dict x = some i → Sw.name_dict i = x := by
    intro x i h
    simp only [Sw] at h
    split_ifs at h with h1 h2
    · obtain rfl : (0 : Fin 2) = i := Option.some.inj h
      rw [h1]
      rfl
    · obtain rfl : (1 : Fin 2) = i := Option.some.inj h
      rw [h2]
      rfl
  have h := predict_link_no_self Sw hA hR hinj hcompat
  refine ⟨h.1 0 1 (by decide) rfl ?_, h.2 "a" 0 rfl ⟨1, by decide, rfl, ?_⟩⟩
  · show Sw.R 0 1 < 999
    norm_num [Sw]
  · show Sw.R 0 1 < 999
    norm_num [Sw]

/-- C6 counterexample: on the reachable state built from the single pair
`("a", "b")` (a complete graph on two nodes) every off-diagonal entry of the
muted matrix exceeds the diagonal, and both forms of `predict_link` recommend
a node to itself: the global form returns `("a", "a")` and the per-node form
recommends `"a"` to `"a"` itself. -/
theorem predict_link_self_recommendation :
    Reachable SK2 ∧
    predict_link_none SK2 = Except.ok ("a", "a") ∧
    predict_link_some SK2 "a" = Except.ok "a" := by
  have hA : SK2.A = !![0, 1; 1, 0] := buildAdj_K2
  have hRK2 : SK2.R = Matrix.of (fun j i => DK2 j i i) - 1 := by
    ext p q
    fin_cases p <;> fin_cases q <;>
      simp [SK2, DK2, DK2Z, intMat, Matrix.map_apply, Matrix.one_apply,
        Matrix.vecHead, Matrix.vecTail] <;> norm_num
  have hreach : Reachable SK2 := by
    refine Reachable.constructed ffK2 SK2 ⟨rfl, rfl, rfl, rfl, ?_⟩
    refine ⟨DK2, fun j => ⟨1, ?_⟩, hRK2⟩
    rw [show (SK2.A : Matrix (Fin 2) (Fin 2) ℚ) = !![0, 1; 1, 0] from hA]
    exact K2_is_drazin j
  have hRm : R_mute SK2 = !![999, 1000; 1000, 999] := by
    have hR : SK2.R = !![0, 1; 1, 0] := rfl
    simp only [R_mute, hA, hR]
    ext p q
    fin_cases p <;> fin_cases q <;>
      simp [Matrix.one_apply, Matrix.vecHead, Matrix.vecTail] <;> norm_num
  have hflat : flattenM (R_mute SK2) = [999, 1000, 1000, 999] := by
    rw [hRm]
    rfl
  have hargq : argminIdx [(999 : ℚ), 1000, 1000, 999] = 0 := by
    simp only [argminIdx, argminAux]
    norm_num
  have hnone : predict_link_none SK2 = Except.ok ("a", "a") := by
    simp only [predict_link_none, hflat, hargq]
    rw [dif_pos (by norm_num : (0 : ℕ) < 2)]
    rfl
  have hrow : ((List.finRange 2).map fun j => R_mute SK2 0 j) = [999, 1000] := by
    rw [hRm]
    rfl
  have hargr : argminIdx [(999 : ℚ), 1000] = 0 := by
    simp only [argminIdx, argminAux]
    norm_num
  have hsome : predict_link_some SK2 "a" = Except.ok "a" := by
    have hia : SK2.index_dict "a" = some 0 := rfl
    simp only [predict_link_some, hia, hrow, hargr]
    rfl
  exact ⟨hreach, hnone, hsome⟩
